import Mathlib

/-!
# Verification of the pymodeling association engine and forward-reference engine

Shallow embedding of `modeling/instrument.py` (bidirectional association
containers and their peer associators) and `modeling/forward.py`
(forward-reference tree and the `forward_call` combinator), with proofs of the
specification's claims about them.

Conventions of the embedding:

* A Python object is identified by a `Nat`; the Python value `None` is
  `Option.none`, so a "Python reference" is `V := Option Nat`.
* A Python `set` is modelled as a `List` without duplicates; `set.add` appends
  when absent, `set.discard`/`set.remove` erase the element.  Iteration order
  over such a set is the list order.
* Every mutating operation returns `Except St St`: `.ok s` is a normal return
  with final state `s`, `.error s` is a Python exception escaping with the
  heap left in state `s`.  All raises in the source (`AssociationTypeError`,
  `AssociationNoneError`, `AssociationDuplicateError`, `IndexError`,
  `KeyError`/`ValueError` from `set.remove`/`list.remove`, and failing
  `assert` statements) are `.error`.
* Containers are modelled as always existing (the lazily-created container of
  the source is the empty container), matching the eager construction used by
  the test-suite classes; `getattr`-or-`create_container` is a total lookup.
* Calls into an associator (`associate`/`dissociate`) are recorded in a trace
  field of the state, so that claims about which peer calls an operation
  issues can be stated.
-/

namespace PyModeling

/-- A Python reference: an object id, or `none` for Python `None`. -/
abbrev V := Option Nat

/-- `set.add`: add the element if it is not already a member. -/
def setAdd (l : List V) (x : V) : List V := if x ∈ l then l else l ++ [x]

/-- A record of one call into an associator.  `assocB own other` is a call of
`associate(own, other)` on the associator that manages B-side containers
(the `peer_associator` of an A-side container), and similarly for the rest. -/
inductive Call where
  | assocB (own other : V)
  | dissocB (own other : V)
  | assocA (own other : V)
  | dissocA (own other : V)
deriving DecidableEq, Repr

/-- The fields of an association container.  A `SingletonAssociation` uses
`value` (`none` = unset), a `SetAssociation` uses `values`, an
`OrderedAssociation` uses `seq` and `values`. -/
structure Cont where
  value : V
  values : List V
  seq : List V
deriving Repr

/-- A freshly constructed container: no association. -/
def Cont.empty : Cont := ⟨none, [], []⟩

/-- The state of one relationship: the containers of endpoint r1 on every
A-side object, the containers of endpoint r2 on every B-side object, and the
trace of associator calls made so far. -/
structure St where
  a : V → Cont
  b : V → Cont
  tr : List Call

/-- Update the A-side container of object `k`. -/
def updA (s : St) (k : V) (f : Cont → Cont) : St :=
  { s with a := Function.update s.a k (f (s.a k)) }

/-- Update the B-side container of object `k`. -/
def updB (s : St) (k : V) (f : Cont → Cont) : St :=
  { s with b := Function.update s.b k (f (s.b k)) }

/-- Record an associator invocation in the trace. -/
def emit (s : St) (c : Call) : St := { s with tr := s.tr ++ [c] }

/-- Result of a mutating operation: normal return or escaped exception,
in both cases carrying the heap state. -/
abbrev Res := Except St St

/-- Sequencing of Python statements: an exception propagates. -/
def bindR (r : Res) (f : St → Res) : Res :=
  match r with
  | .error s => .error s
  | .ok s => f s

/-- The state carried by a result, whether it was returned or thrown past. -/
def stateOf (r : Res) : St :=
  match r with
  | .error s => s
  | .ok s => s

/-- The trace carried by a result. -/
def traceOf (r : Res) : List Call := (stateOf r).tr

/-- A `for` loop over a list of elements, threading the state and stopping at
the first exception (which then propagates). -/
def forList (f : V → St → Res) : List V → St → Res
  | [], s => .ok s
  | v :: rest, s => bindR (f v s) (forList f rest)

/-- The three relationship endpoint kinds. -/
inductive Kind where
  | one
  | many
  | ordered
deriving DecidableEq, Repr

/-- `Associator.validate_object`, as a Boolean: `False` means the method
raises (`AssociationNoneError` for `None`, `AssociationTypeError` for a value
failing the `isinstance` check, here the predicate `ty`). -/
def validate_object (ty : Nat → Bool) : V → Bool
  | none => false
  | some n => ty n

/-- `dissociate(own, other)` on the associator managing A-side containers.
Dispatch on the kind of the A side:
* `Kind.one`: `SingletonAssociator.dissociate` — set the container's value
  to `None`.
* `Kind.many`: `SetAssociator.dissociate` — `assert other in coll`, then
  `coll.values.remove(other)`.
* `Kind.ordered`: `OrderedAssociator.dissociate` — `assert other in coll`,
  then `coll.values.remove(other)` and `coll.seq.remove(other)`.
The `own is other and self.peer is self` short-circuit of the source never
fires here: this is the two-endpoint wiring, in which an associator's peer is
the other endpoint's associator, not itself (the self-symmetric wiring is
modelled separately below). -/
def dissocA (k1 : Kind) (own other : V) (s : St) : Res :=
  let s := emit s (.dissocA own other)
  match k1 with
  | .one => .ok (updA s own fun c => { c with value := none })
  | .many =>
      if other ∈ (s.a own).values then
        .ok (updA s own fun c => { c with values := c.values.erase other })
      else .error s
  | .ordered =>
      if other ∈ (s.a own).values then
        let s1 := updA s own fun c => { c with values := c.values.erase other }
        if other ∈ (s1.a own).seq then
          .ok (updA s1 own fun c => { c with seq := c.seq.erase other })
        else .error s1
      else .error s

/-- `dissociate(own, other)` on the associator managing B-side containers.
Mirror image of `dissocA`; see its documentation. -/
def dissocB (k2 : Kind) (own other : V) (s : St) : Res :=
  let s := emit s (.dissocB own other)
  match k2 with
  | .one => .ok (updB s own fun c => { c with value := none })
  | .many =>
      if other ∈ (s.b own).values then
        .ok (updB s own fun c => { c with values := c.values.erase other })
      else .error s
  | .ordered =>
      if other ∈ (s.b own).values then
        let s1 := updB s own fun c => { c with values := c.values.erase other }
        if other ∈ (s1.b own).seq then
          .ok (updB s1 own fun c => { c with seq := c.seq.erase other })
        else .error s1
      else .error s

/-- `associate(own, other)` on the associator managing B-side containers.
Dispatch on the kind of the B side:
* `Kind.one`: `SingletonAssociator.associate` — if the container already
  holds `other`, return; else first `self.peer.dissociate(coll.value, own)`
  if the container is occupied (a cascade into the A side, of kind `k1`),
  then store `other`.
* `Kind.many`: `SetAssociator.associate` — `coll.values.add(other)` (the raw
  backing-set add, bypassing the public `add`).
* `Kind.ordered`: `OrderedAssociator.associate` —
  `assert other not in coll.values`, then `coll.values.add(other)` and
  `coll.seq.append(other)` (the `association_index` attribute is always
  `None`: `OrderedAssociator.__init__` ignores its `assoc_index` argument). -/
def assocB (k1 k2 : Kind) (own other : V) (s : St) : Res :=
  let s := emit s (.assocB own other)
  match k2 with
  | .one =>
      if (s.b own).value = other then .ok s
      else
        bindR (if (s.b own).value ≠ none
               then dissocA k1 ((s.b own).value) own s
               else .ok s) fun s1 =>
          .ok (updB s1 own fun c => { c with value := other })
  | .many => .ok (updB s own fun c => { c with values := setAdd c.values other })
  | .ordered =>
      if other ∈ (s.b own).values then .error s
      else
        .ok (updB s own fun c =>
          { c with values := setAdd c.values other, seq := c.seq ++ [other] })

/-- `associate(own, other)` on the associator managing A-side containers.
Mirror image of `assocB`; the singleton cascade goes into the B side. -/
def assocA (k1 k2 : Kind) (own other : V) (s : St) : Res :=
  let s := emit s (.assocA own other)
  match k1 with
  | .one =>
      if (s.a own).value = other then .ok s
      else
        bindR (if (s.a own).value ≠ none
               then dissocB k2 ((s.a own).value) own s
               else .ok s) fun s1 =>
          .ok (updA s1 own fun c => { c with value := other })
  | .many => .ok (updA s own fun c => { c with values := setAdd c.values other })
  | .ordered =>
      if other ∈ (s.a own).values then .error s
      else
        .ok (updA s own fun c =>
          { c with values := setAdd c.values other, seq := c.seq ++ [other] })

/-!
## Container operations

Each mutating method of the three container classes, for a container of
endpoint r1 living on A-side object `x`.  `ty` is the `isinstance` predicate
used by `self.peer_associator.peer.validate_object` (the content type of the
A-side endpoint, i.e. the B-side class); `k2` is the kind of the peer
endpoint, which selects which `associate`/`dissociate` implementation the
calls into `self.peer_associator` run.
-/

/-- `SingletonAssociation.set(newvalue)`:
validate `newvalue` if not `None`; if the current value is not `None`,
`dissociate` it; store `newvalue`; if not `None`, `associate` it. -/
def singleton_set (ty : Nat → Bool) (k2 : Kind) (x : Nat) (newv : V) (s : St) : Res :=
  if newv ≠ none ∧ validate_object ty newv = false then .error s
  else
    bindR (if (s.a (some x)).value ≠ none
           then dissocB k2 ((s.a (some x)).value) (some x) s
           else .ok s) fun s1 =>
      let s2 := updA s1 (some x) fun c => { c with value := newv }
      if newv ≠ none then assocB .one k2 newv (some x) s2 else .ok s2

/-- `SingletonAssociation.get()`. -/
def singleton_get (x : Nat) (s : St) : V := (s.a (some x)).value

/-- `SetAssociation.add(value)`: no-op if present, else validate, add to the
backing set, and `associate`. -/
def set_add (ty : Nat → Bool) (k2 : Kind) (x : Nat) (v : V) (s : St) : Res :=
  if v ∈ (s.a (some x)).values then .ok s
  else if validate_object ty v = false then .error s
  else
    let s1 := updA s (some x) fun c => { c with values := setAdd c.values v }
    assocB .many k2 v (some x) s1

/-- `SetAssociation.discard(value)`: no-op if absent, else remove from the
backing set and `dissociate`. -/
def set_discard (k2 : Kind) (x : Nat) (v : V) (s : St) : Res :=
  if v ∈ (s.a (some x)).values then
    let s1 := updA s (some x) fun c => { c with values := c.values.erase v }
    dissocB k2 v (some x) s1
  else .ok s

/-- `SetAssociation.clear()`: `dissociate` every member, then clear the
backing set. -/
def set_clear (k2 : Kind) (x : Nat) (s : St) : Res :=
  bindR (forList (fun v s => dissocB k2 v (some x) s) (s.a (some x)).values s)
    fun s1 => .ok (updA s1 (some x) fun c => { c with values := [] })

/-- `SetAssociation.assign(sobj)`: `clear` then `add` each element. -/
def set_assign (ty : Nat → Bool) (k2 : Kind) (x : Nat) (xs : List V) (s : St) : Res :=
  bindR (set_clear k2 x s) (forList (fun v s => set_add ty k2 x v s) xs)

/-- `OrderedAssociation.insert(index, newvalue)`: duplicate check, validate,
insert into `seq` (Python `list.insert` clamps the index to the length), add
to `values`, `associate`. -/
def ord_insert (ty : Nat → Bool) (k2 : Kind) (x : Nat) (i : Nat) (v : V) (s : St) : Res :=
  if v ∈ (s.a (some x)).values then .error s
  else if validate_object ty v = false then .error s
  else
    let s1 := updA s (some x) fun c =>
      { c with seq := c.seq.insertIdx (min i c.seq.length) v,
               values := setAdd c.values v }
    assocB .ordered k2 v (some x) s1

/-- `OrderedAssociation.__setitem__(index, newvalue)` for an integer index:
read the old value (`IndexError` if out of range), no-op if equal, duplicate
check, validate, then swap in `values` (`set.remove` first, a `KeyError` if
the old value is untracked) and `seq`, then `dissociate` the old value and
`associate` the new. -/
def ord_setI (ty : Nat → Bool) (k2 : Kind) (x : Nat) (i : Nat) (newv : V) (s : St) : Res :=
  if h : i < (s.a (some x)).seq.length then
    let oldv := (s.a (some x)).seq.get ⟨i, h⟩
    if oldv = newv then .ok s
    else if newv ∈ (s.a (some x)).values then .error s
    else if validate_object ty newv = false then .error s
    else if oldv ∈ (s.a (some x)).values then
      let s1 := updA s (some x) fun c =>
        { c with values := setAdd (c.values.erase oldv) newv,
                 seq := c.seq.set i newv }
      bindR (dissocB k2 oldv (some x) s1) (assocB .ordered k2 newv (some x))
    else .error s
  else .error s

/-- The sub-list selected by the Python slice `[i:j]` (step 1, non-negative
bounds): indices are clamped to the length and an empty slice results when
`j ≤ i`. -/
def pySlice (l : List V) (i j : Nat) : List V :=
  (l.drop (min i l.length)).take (max (min i l.length) (min j l.length) - min i l.length)

/-- Replace the Python slice `[i:j]` of `l` by `ys`. -/
def pySpliceSet (l : List V) (i j : Nat) (ys : List V) : List V :=
  l.take (min i l.length) ++ ys ++ l.drop (max (min i l.length) (min j l.length))

/-- `OrderedAssociation.__setitem__(index, newvalue)` for a slice `[i:j]`
(list/tuple/iterator argument, already scanned into the list `ys`):
reject an internal duplicate (`len(set(ys)) != len(ys)`); compute
`removed = set(old slice)`, `new_not_removed`, `removed_not_new`; reject if
`values` is not disjoint from `new_not_removed`; validate every element of
`ys`; only then splice `seq`, update `values` by the symmetric difference,
and `dissociate`/`associate` the net-removed/net-added elements. -/
def ord_setS (ty : Nat → Bool) (k2 : Kind) (x : Nat) (i j : Nat) (ys : List V) (s : St) : Res :=
  if ys.dedup.length ≠ ys.length then .error s
  else
    let removed := pySlice (s.a (some x)).seq i j
    let new_not_removed := ys.dedup.filter (fun v => decide (v ∉ removed))
    let removed_not_new := removed.filter (fun v => decide (v ∉ ys.dedup))
    if (s.a (some x)).values.any (fun v => decide (v ∈ new_not_removed)) then .error s
    else
      bindR (forList (fun v s => if validate_object ty v then .ok s else .error s) ys s)
        fun s0 =>
        let s1 := updA s0 (some x) fun c =>
          { c with seq := pySpliceSet c.seq i j ys,
                   values := new_not_removed.foldl setAdd
                               (c.values.filter (fun v => decide (v ∉ removed_not_new))) }
        bindR (forList (fun v s => dissocB k2 v (some x) s) removed_not_new s1)
          (forList (fun v s => assocB .ordered k2 v (some x) s) new_not_removed)

/-- `OrderedAssociation.__delitem__(index)` for an integer index:
read the element (`IndexError` if out of range), delete it from `seq`, then
`values.remove` it (`KeyError` if untracked) and `dissociate`. -/
def ord_delI (k2 : Kind) (x : Nat) (i : Nat) (s : St) : Res :=
  if h : i < (s.a (some x)).seq.length then
    let u := (s.a (some x)).seq.get ⟨i, h⟩
    let s1 := updA s (some x) fun c => { c with seq := c.seq.eraseIdx i }
    if u ∈ (s1.a (some x)).values then
      let s2 := updA s1 (some x) fun c => { c with values := c.values.erase u }
      dissocB k2 u (some x) s2
    else .error s1
  else .error s

/-- `OrderedAssociation.__delitem__(index)` for a slice `[i:j]`: read the
selected elements, delete the slice from `seq`, then for each removed element
`values.remove` it and `dissociate`. -/
def ord_delS (k2 : Kind) (x : Nat) (i j : Nat) (s : St) : Res :=
  let u := pySlice (s.a (some x)).seq i j
  let s1 := updA s (some x) fun c => { c with seq := pySpliceSet c.seq i j [] }
  forList (fun v s =>
      if v ∈ (s.a (some x)).values then
        dissocB k2 v (some x)
          (updA s (some x) fun c => { c with values := c.values.erase v })
      else .error s) u s1

/-- One iteration of `MutableSequence.clear`:
`pop()` = read and delete `self[-1]`. -/
def ord_pop_last (k2 : Kind) (x : Nat) (s : St) : Res :=
  ord_delI k2 x ((s.a (some x)).seq.length - 1) s

/-- The `while` loop of `MutableSequence.clear`, with fuel: `pop()` until the
sequence is empty (each successful `pop` removes exactly one element, so fuel
equal to the initial length makes the loop exact). -/
def ord_clear_go (k2 : Kind) (x : Nat) : Nat → St → Res
  | 0, s => .ok s
  | n + 1, s =>
      if (s.a (some x)).seq = [] then .ok s
      else bindR (ord_pop_last k2 x s) (ord_clear_go k2 x n)

/-- `MutableSequence.clear` for an `OrderedAssociation`. -/
def ord_clear (k2 : Kind) (x : Nat) (s : St) : Res :=
  ord_clear_go k2 x (s.a (some x)).seq.length s

/-- `MutableSequence.append(v)` = `insert(len(self), v)`;
`OrderedAssociation.__len__` is `len(self.values)`. -/
def ord_append (ty : Nat → Bool) (k2 : Kind) (x : Nat) (v : V) (s : St) : Res :=
  ord_insert ty k2 x (s.a (some x)).values.length v s

/-- `OrderedAssociation.assign(sobj)`: `clear` then `append` each element. -/
def ord_assign (ty : Nat → Bool) (k2 : Kind) (x : Nat) (ys : List V) (s : St) : Res :=
  bindR (ord_clear k2 x s) (forList (fun v s => ord_append ty k2 x v s) ys)

/-!
## The mutating operations of the engine, and reachable states

`AOp` enumerates the mutating container operations, applied to the container
of some A-side object.  A `Step` of the whole relationship is such an
operation run on the A side, or (by symmetry of the implementation) on the
B side, in which case it is the same code acting on the mirrored state.
-/

/-- A mutating operation of the association engine on one container. -/
inductive AOp where
  | sset (x : Nat) (newv : V)
  | sadd (x : Nat) (v : V)
  | sdiscard (x : Nat) (v : V)
  | sclear (x : Nat)
  | sassign (x : Nat) (vs : List V)
  | oinsert (x i : Nat) (v : V)
  | osetI (x i : Nat) (v : V)
  | osetS (x i j : Nat) (vs : List V)
  | odelI (x i : Nat)
  | odelS (x i j : Nat)
  | oassign (x : Nat) (vs : List V)

/-- The container kind an operation belongs to. -/
def AOp.kind : AOp → Kind
  | .sset .. => .one
  | .sadd .. | .sdiscard .. | .sclear .. | .sassign .. => .many
  | _ => .ordered

/-- Run an `AOp` on the A side of the relationship.  `ty` is the content-type
predicate of the A-side endpoint (B-side objects), `k2` the peer kind. -/
def runA (ty : Nat → Bool) (k2 : Kind) : AOp → St → Res
  | .sset x newv => singleton_set ty k2 x newv
  | .sadd x v => set_add ty k2 x v
  | .sdiscard x v => set_discard k2 x v
  | .sclear x => set_clear k2 x
  | .sassign x vs => set_assign ty k2 x vs
  | .oinsert x i v => ord_insert ty k2 x i v
  | .osetI x i v => ord_setI ty k2 x i v
  | .osetS x i j vs => ord_setS ty k2 x i j vs
  | .odelI x i => ord_delI k2 x i
  | .odelS x i j => ord_delS k2 x i j
  | .oassign x vs => ord_assign ty k2 x vs

/-- Mirror a trace entry (exchange the two sides). -/
def Call.swap : Call → Call
  | .assocB own other => .assocA own other
  | .dissocB own other => .dissocA own other
  | .assocA own other => .assocB own other
  | .dissocA own other => .dissocB own other

/-- Mirror the state (exchange the two sides). -/
def St.swap (s : St) : St := ⟨s.b, s.a, s.tr.map Call.swap⟩

/-- Mirror a result. -/
def Res.swap : Res → Res
  | .ok s => .ok s.swap
  | .error s => .error s.swap

/-- Run an `AOp` on the B side: the implementation is the same code with the
two sides exchanged.  `ty` is the content-type predicate of the B-side
endpoint (A-side objects), `k1` the kind of its peer (the A side). -/
def runB (ty : Nat → Bool) (k1 : Kind) (op : AOp) (s : St) : Res :=
  (runA ty k1 op s.swap).swap

/-- The empty initial state: every container unassociated. -/
def St.init : St := ⟨fun _ => Cont.empty, fun _ => Cont.empty, []⟩

/-- One mutating operation of the engine, on either side, whether it returned
normally or raised: the resulting heap is observable either way. -/
inductive Step (tyA tyB : Nat → Bool) (k1 k2 : Kind) : St → St → Prop where
  | stepA (op : AOp) (s : St) : op.kind = k1 →
      Step tyA tyB k1 k2 s (stateOf (runA tyB k2 op s))
  | stepB (op : AOp) (s : St) : op.kind = k2 →
      Step tyA tyB k1 k2 s (stateOf (runB tyA k1 op s))

/-- States reachable from the initial state by mutating operations. -/
inductive Reach (tyA tyB : Nat → Bool) (k1 k2 : Kind) : St → Prop where
  | init : Reach tyA tyB k1 k2 St.init
  | step {s s' : St} : Reach tyA tyB k1 k2 s → Step tyA tyB k1 k2 s s' →
      Reach tyA tyB k1 k2 s'

/-!
## Invariants
-/

/-- Membership of `v` in a container of the given kind
(`x2 in x1.r1` of the specification). -/
def memK : Kind → Cont → V → Prop
  | .one, c, v => c.value = v
  | .many, c, v => v ∈ c.values
  | .ordered, c, v => v ∈ c.values

instance (k : Kind) (c : Cont) (v : V) : Decidable (memK k c v) := by
  cases k <;> simp only [memK] <;> infer_instance

/-- Well-formedness of a backing set: no duplicates and no `None` entry. -/
def WFset (l : List V) : Prop := l.Nodup ∧ none ∉ l

/-- Well-formedness of a container of the given kind.  For an ordered
container, the sequence and the tracked membership set hold the same
elements, without duplicates and without `None`. -/
def WFK : Kind → Cont → Prop
  | .one, _ => True
  | .many, c => WFset c.values
  | .ordered, c => WFset c.values ∧ c.seq.Nodup ∧ ∀ v, v ∈ c.seq ↔ v ∈ c.values

/-- Referential symmetry: `y ∈ x.r1 ⟺ x ∈ y.r2` for all objects. -/
def Sym (k1 k2 : Kind) (s : St) : Prop :=
  ∀ x y : Nat, memK k1 (s.a (some x)) (some y) ↔ memK k2 (s.b (some y)) (some x)

/-- The engine invariant: referential symmetry plus well-formedness of every
container on both sides. -/
def Inv (k1 k2 : Kind) (s : St) : Prop :=
  Sym k1 k2 s ∧ (∀ v, WFK k1 (s.a v)) ∧ (∀ v, WFK k2 (s.b v))

/-- A concrete ONE-ONE state: object 0's A-side singleton holds object 1,
object 1's B-side singleton holds object 0, empty trace. -/
def s0C7 : St :=
  ⟨fun v => if v = some 0 then ⟨some 1, [], []⟩ else Cont.empty,
   fun v => if v = some 1 then ⟨some 0, [], []⟩ else Cont.empty, []⟩
/-- A concrete MANY-MANY state: object 0's A-side set holds object 1,
object 1's B-side set holds object 0, empty trace. -/
def s0C8 : St :=
  ⟨fun v => if v = some 0 then ⟨none, [some 1], []⟩ else Cont.empty,
   fun v => if v = some 1 then ⟨none, [some 0], []⟩ else Cont.empty, []⟩
/-!
## The self-symmetric wiring

For a symmetric MANY self-relationship there is one endpoint whose peer
associator is itself (`self.peer is self`), and every object carries one
container.  The state is one container map plus a counter of raw container
mutations (each executed `values.add`/`values.remove`/`values.discard`
statement).  `SetAssociator.associate`/`dissociate` start with
`if own is other and self.peer is self: return`, which in this wiring fires
exactly when the two objects coincide; otherwise they perform one raw
mutation of `own`'s container.  Neither ever calls back into a container
operation, so the embedding is structurally non-recursive, as is the
source.
-/

/-- State of a symmetric MANY self-relationship: each object's container,
and the number of raw container mutations performed so far. -/
structure SSt where
  a : V → List V
  edits : Nat

/-- `SetAssociator.associate(own, other)` with `self.peer is self`. -/
def selfAssociate (own other : V) (s : SSt) : SSt :=
  if own = other then s
  else ⟨Function.update s.a own (setAdd (s.a own) other), s.edits + 1⟩

/-- `SetAssociator.dissociate(own, other)` with `self.peer is self`:
the `assert other in coll` raises if the association is not present. -/
def selfDissociate (own other : V) (s : SSt) : Except SSt SSt :=
  if own = other then .ok s
  else if other ∈ s.a own then
    .ok ⟨Function.update s.a own ((s.a own).erase other), s.edits + 1⟩
  else .error s

/-- `SetAssociation.add(value)` on object `n`'s container, self-symmetric
wiring. -/
def self_add (ty : Nat → Bool) (n : Nat) (v : V) (s : SSt) : Except SSt SSt :=
  if v ∈ s.a (some n) then .ok s
  else if validate_object ty v = false then .error s
  else
    let s1 : SSt :=
      ⟨Function.update s.a (some n) (setAdd (s.a (some n)) v), s.edits + 1⟩
    .ok (selfAssociate v (some n) s1)

/-- `SetAssociation.discard(value)` on object `n`'s container,
self-symmetric wiring. -/
def self_discard (n : Nat) (v : V) (s : SSt) : Except SSt SSt :=
  if v ∈ s.a (some n) then
    let s1 : SSt :=
      ⟨Function.update s.a (some n) ((s.a (some n)).erase v), s.edits + 1⟩
    selfDissociate v (some n) s1
  else .ok s

/-- `MutableSet.remove(value)`: `KeyError` if absent, else `discard`. -/
def self_remove (n : Nat) (v : V) (s : SSt) : Except SSt SSt :=
  if v ∈ s.a (some n) then self_discard n v s else .error s
/-- The empty self-symmetric state. -/
def sSelf0 : SSt := ⟨fun _ => [], 0⟩
/-!
## The forward-reference tree (`modeling/forward.py`)

A `ForwardReference` node holds a list of attached callbacks (each a pair of
an opaque callable, here a `Nat` id, and the index/key the attacher
supplied) and a dictionary of already-materialized children (insertion
order).  Membership of the node in the context's `PENDING` set is carried on
the node as a Boolean.  A Python value is a `PVal`: a leaf or an object with
named attributes; `getattr` is `PVal.attr`, raising (`none`) when the
attribute is missing.  Invoking a callback `(f, idx)` with value `v` is
recorded as the event `(f, v, idx)`.
-/

/-- A Python value seen by the forward machinery: a leaf object or an object
with named attributes. -/
inductive PVal where
  | base (id : Nat)
  | obj (attrs : List (String × PVal))

/-- `getattr(value, name)`: `none` models a raised `AttributeError`. -/
def PVal.attr : PVal → String → Option PVal
  | .base _, _ => none
  | .obj attrs, k => attrs.lookup k

/-- A `ForwardReference` node: attached callbacks in attachment order (id and
the attacher-supplied index), membership in the context's `PENDING` set, and
the already-materialized children in insertion order. -/
inductive FNode where
  | mk (callbacks : List (Nat × Option Nat)) (pending : Bool)
      (children : List (String × FNode))

def FNode.callbacks : FNode → List (Nat × Option Nat)
  | .mk c _ _ => c

def FNode.pending : FNode → Bool
  | .mk _ p _ => p

def FNode.children : FNode → List (String × FNode)
  | .mk _ _ ch => ch

/-- `ForwardReference.attach(callback)`: if the callback list is empty, add
the node to `PENDING`; then append the callback.  No other check: the source
never rejects an attach. -/
def attach (n : FNode) (cb : Nat × Option Nat) : FNode :=
  match n with
  | .mk cbs p ch => .mk (cbs ++ [cb]) (if cbs.isEmpty then true else p) ch

/-- A callback-invocation event: callback id, the value it received, and the
attacher-supplied index. -/
abbrev FEv := Nat × PVal × Option Nat

mutual
/-- `ForwardReference.__call__(value)` for a concrete (non-reference) value:
invoke every callback with the value and its index, then for each
materialized child `k` recursively bind `getattr(value, k)` (an absent
attribute raises), then clear the callback list and leave `PENDING`.
Returns the rebuilt node and the events in emission order. -/
def callF (n : FNode) (v : PVal) : Except Unit (FNode × List FEv) :=
  match n with
  | .mk cbs _p ch =>
    match callCh ch v with
    | .error e => .error e
    | .ok (ch2, evs2) =>
        .ok (.mk [] false ch2, cbs.map (fun c => (c.1, v, c.2)) ++ evs2)

/-- The `for child in children` loop of `ForwardReference.__call__`. -/
def callCh (ch : List (String × FNode)) (v : PVal) :
    Except Unit (List (String × FNode) × List FEv) :=
  match ch with
  | [] => .ok ([], [])
  | (k, c) :: rest =>
    match v.attr k with
    | none => .error ()
    | some cv =>
      match callF c cv with
      | .error e => .error e
      | .ok (c2, evs1) =>
        match callCh rest v with
        | .error e => .error e
        | .ok (rest2, evs2) => .ok ((k, c2) :: rest2, evs1 ++ evs2)
end

/-- The children of a node after a successful bind of `v`: every child name
resolved through `getattr` and recursively bound, in order. -/
inductive ChBound (v : PVal) :
    List (String × FNode) → List (String × FNode) → List FEv → Prop where
  | nil : ChBound v [] [] []
  | cons {k : String} {c c2 : FNode} {cv : PVal}
      {rest rest2 : List (String × FNode)} {evs1 evs2 : List FEv} :
      v.attr k = some cv → callF c cv = .ok (c2, evs1) →
      ChBound v rest rest2 evs2 →
      ChBound v ((k, c) :: rest) ((k, c2) :: rest2) (evs1 ++ evs2)
/-!
## `forward_call` (`modeling/forward.py`)

A `forward_call` scans its positional and keyword arguments at construction.
An argument is a plain value, an unresolved `ForwardReference`, a
`forward_call` that already has a `result`, or one that is still pending.
Argument values are `Nat`s; a slot whose argument is still unresolved holds
`none` (in the source it still holds the reference object itself).  The
stored function is modelled as an explicit parameter
`f : List (Option Nat) → List (String × Option Nat) → Nat` of the
operations (the source keeps it in `self.func`).  Invoking an attached
callback `(id, idx)` with result `r` is the event `(id, idx, r)`. -/

/-- One argument of a `forward_call`. -/
inductive Arg where
  | val (v : Nat)
  | fref
  | fcReady (r : Nat)
  | fcPending
deriving DecidableEq, Repr

/-- Whether the argument is concrete at construction time (not an unresolved
reference or a pending `forward_call`). -/
def Arg.isReady : Arg → Bool
  | .val _ | .fcReady _ => true
  | .fref | .fcPending => false

/-- The value `__forward_store` leaves in the slot: the plain value, a ready
call's cached result, or nothing yet. -/
def Arg.stored : Arg → Option Nat
  | .val v => some v
  | .fcReady r => some r
  | .fref => none
  | .fcPending => none

/-- State of a `forward_call` object: the countdown `barrier`, the attached
callbacks in attachment order, the positional and keyword slots, and the
cached `result` (absent until the single invocation). -/
structure FC where
  barrier : Int
  callbacks : List (Nat × Nat)
  slots : List (Option Nat)
  kwslots : List (String × Option Nat)
  result : Option Nat

/-- A callback-invocation event of `__emit`: callback id, its index, the
result it received. -/
abbrev CEv := Nat × Nat × Nat

/-- `__barrier_run`: invoke the function on the current slots, cache the
result, then `while self.callbacks: self.__emit(self.callbacks.pop())` —
the queued callbacks fire in reverse attachment order. -/
def runBarrier (f : List (Option Nat) → List (String × Option Nat) → Nat)
    (fc : FC) : FC × List CEv :=
  let r := f fc.slots fc.kwslots
  ({ fc with result := some r, callbacks := [] },
   fc.callbacks.reverse.map (fun cb => (cb.1, cb.2, r)))

/-- The scan of `__init__` over the positional arguments: the initial slot
contents and the number of barrier increments (one per unresolved
argument). -/
def scanPos : List Arg → List (Option Nat) × Int
  | [] => ([], 0)
  | a :: rest =>
    let (l, b) := scanPos rest
    (a.stored :: l, b + (if a.isReady then 0 else 1))

/-- The scan of `__init__` over the keyword arguments. -/
def scanKw : List (String × Arg) → List (String × Option Nat) × Int
  | [] => ([], 0)
  | (k, a) :: rest =>
    let (l, b) := scanKw rest
    ((k, a.stored) :: l, b + (if a.isReady then 0 else 1))

/-- `forward_call.__init__`: barrier starts at 1, each unresolved argument
increments it (and attaches a slot-filling callback to its reference or
pending call), then the barrier is decremented; at zero, `__barrier_run`
fires immediately (the callback list is still empty then). -/
def mkFC (f : List (Option Nat) → List (String × Option Nat) → Nat)
    (args : List Arg) (kwargs : List (String × Arg)) : FC × List CEv :=
  let fc : FC := ⟨1 + (scanPos args).2 + (scanKw kwargs).2 - 1, [],
    (scanPos args).1, (scanKw kwargs).1, none⟩
  if fc.barrier = 0 then runBarrier f fc else (fc, [])

/-- `__storeslot`: fill positional slot `i` with the delivered value,
decrement the barrier, run at zero. -/
def deliverPos (f : List (Option Nat) → List (String × Option Nat) → Nat)
    (i : Nat) (v : Nat) (fc : FC) : FC × List CEv :=
  let fc1 := { fc with slots := fc.slots.set i (some v),
                       barrier := fc.barrier - 1 }
  if fc1.barrier = 0 then runBarrier f fc1 else (fc1, [])

/-- `__storekwslot`: fill the keyword slot `k`, decrement the barrier, run at
zero. -/
def deliverKw (f : List (Option Nat) → List (String × Option Nat) → Nat)
    (k : String) (v : Nat) (fc : FC) : FC × List CEv :=
  let fc1 := { fc with
    kwslots := fc.kwslots.map (fun p => if p.1 = k then (p.1, some v) else p),
    barrier := fc.barrier - 1 }
  if fc1.barrier = 0 then runBarrier f fc1 else (fc1, [])

/-- `forward_call.__attach`: if the result is already cached, emit the
callback immediately with it; otherwise queue the callback. -/
def attachFC (cb : Nat × Nat) (fc : FC) : FC × List CEv :=
  match fc.result with
  | some r => (fc, [(cb.1, cb.2, r)])
  | none => ({ fc with callbacks := fc.callbacks ++ [cb] }, [])

/-!
## Basic lemmas about the state operations
-/

@[simp] theorem updA_a_same (s : St) (k : V) (f : Cont → Cont) :
    (updA s k f).a k = f (s.a k) := by
  simp [updA]

theorem updA_a_other (s : St) (k v : V) (f : Cont → Cont) (h : v ≠ k) :
    (updA s k f).a v = s.a v := by
  simp [updA, Function.update_noteq h]

@[simp] theorem updA_b (s : St) (k : V) (f : Cont → Cont) :
    (updA s k f).b = s.b := rfl

@[simp] theorem updA_tr (s : St) (k : V) (f : Cont → Cont) :
    (updA s k f).tr = s.tr := rfl

@[simp] theorem updB_b_same (s : St) (k : V) (f : Cont → Cont) :
    (updB s k f).b k = f (s.b k) := by
  simp [updB]

theorem updB_b_other (s : St) (k v : V) (f : Cont → Cont) (h : v ≠ k) :
    (updB s k f).b v = s.b v := by
  simp [updB, Function.update_noteq h]

@[simp] theorem updB_a (s : St) (k : V) (f : Cont → Cont) :
    (updB s k f).a = s.a := rfl

@[simp] theorem updB_tr (s : St) (k : V) (f : Cont → Cont) :
    (updB s k f).tr = s.tr := rfl

@[simp] theorem emit_a (s : St) (c : Call) : (emit s c).a = s.a := rfl

@[simp] theorem emit_b (s : St) (c : Call) : (emit s c).b = s.b := rfl

@[simp] theorem stateOf_ok (s : St) : stateOf (.ok s) = s := rfl

@[simp] theorem stateOf_error (s : St) : stateOf (.error s) = s := rfl

@[simp] theorem bindR_ok (s : St) (f : St → Res) : bindR (.ok s) f = f s := rfl

@[simp] theorem bindR_error (s : St) (f : St → Res) :
    bindR (.error s) f = .error s := rfl

theorem mem_setAdd (l : List V) (x v : V) :
    v ∈ setAdd l x ↔ v ∈ l ∨ v = x := by
  by_cases h : x ∈ l
  · simp only [setAdd, if_pos h]
    constructor
    · exact Or.inl
    · rintro (hv | rfl) <;> assumption
  · simp [setAdd, if_neg h]

theorem nodup_setAdd (l : List V) (x : V) (h : l.Nodup) : (setAdd l x).Nodup := by
  by_cases hx : x ∈ l
  · simpa [setAdd, if_pos hx]
  · simp only [setAdd, if_neg hx]
    exact List.Nodup.append h (List.nodup_singleton x) (by simpa using hx)

theorem WFset_setAdd (l : List V) (x : V) (h : WFset l) (hx : x ≠ none) :
    WFset (setAdd l x) := by
  refine ⟨nodup_setAdd l x h.1, ?_⟩
  rw [mem_setAdd]
  rintro (hmem | heq)
  · exact h.2 hmem
  · exact hx heq.symm

theorem WFset_erase (l : List V) (x : V) (h : WFset l) : WFset (l.erase x) := by
  refine ⟨h.1.erase x, fun hmem => h.2 (List.mem_of_mem_erase hmem)⟩

/-!
## Specifications of the associator primitives
-/

/-- Behaviour of `dissociate` on the B side, given that the association being
removed is present (the `assert`/`set.remove` precondition) and the container
is well-formed.  The call succeeds, only the container of `own` changes, the
pair `(own, other)` is removed from it and nothing else, and well-formedness
is preserved. -/
theorem dissocB_spec (k2 : Kind) (y0 x0 : Nat) (s : St)
    (hB : memK k2 (s.b (some y0)) (some x0))
    (hwf : ∀ v, WFK k2 (s.b v)) :
    ∃ s2, dissocB k2 (some y0) (some x0) s = .ok s2 ∧
      s2.a = s.a ∧
      (∀ v, v ≠ some y0 → s2.b v = s.b v) ∧
      (∀ x1 : Nat, memK k2 (s2.b (some y0)) (some x1) ↔
        (memK k2 (s.b (some y0)) (some x1) ∧ x1 ≠ x0)) ∧
      (∀ v, WFK k2 (s2.b v)) := by
  cases k2 with
  | one =>
    refine ⟨updB (emit s (.dissocB (some y0) (some x0))) (some y0)
      (fun c => { c with value := none }), rfl, rfl, ?_, ?_, ?_⟩
    · intro v hv
      simp only [updB_b_other _ _ _ _ hv, emit_b]
    · intro x1
      simp only [memK] at hB ⊢
      simp only [updB_b_same, emit_b]
      constructor
      · intro h; exact absurd h (by simp)
      · rintro ⟨h1, h2⟩
        exact absurd (Option.some_injective _ (hB.symm.trans h1)).symm h2
    · intro v; trivial
  | many =>
    simp only [memK] at hB
    have hwfy := hwf (some y0)
    simp only [WFK] at hwfy
    have hrun : dissocB .many (some y0) (some x0) s =
        .ok (updB (emit s (.dissocB (some y0) (some x0))) (some y0)
          (fun c => { c with values := c.values.erase (some x0) })) := by
      simp only [dissocB, emit_b, if_pos hB]
    refine ⟨_, hrun, rfl, ?_, ?_, ?_⟩
    · intro v hv
      simp only [updB_b_other _ _ _ _ hv, emit_b]
    · intro x1
      simp only [memK, updB_b_same, emit_b]
      rw [hwfy.1.mem_erase_iff]
      constructor
      · rintro ⟨hne, hm⟩; exact ⟨hm, by simpa using hne⟩
      · rintro ⟨hm, hne⟩; exact ⟨by simpa using hne, hm⟩
    · intro v
      by_cases hv : v = some y0
      · subst hv
        simp only [WFK, updB_b_same, emit_b]
        exact WFset_erase _ _ (hwf _)
      · simp only [WFK, updB_b_other _ _ _ _ hv, emit_b]
        exact hwf _
  | ordered =>
    simp only [memK] at hB
    obtain ⟨hset, hseqnd, hiff⟩ := hwf (some y0)
    have hseq : (some x0) ∈ (s.b (some y0)).seq := (hiff _).mpr hB
    have hrun : dissocB .ordered (some y0) (some x0) s =
        .ok (updB (updB (emit s (.dissocB (some y0) (some x0))) (some y0)
              (fun c => { c with values := c.values.erase (some x0) })) (some y0)
          (fun c => { c with seq := c.seq.erase (some x0) })) := by
      simp only [dissocB, emit_b, if_pos hB, updB_b_same, if_pos hseq]
    refine ⟨_, hrun, rfl, ?_, ?_, ?_⟩
    · intro v hv
      rw [updB_b_other _ _ _ _ hv, updB_b_other _ _ _ _ hv]
      simp only [emit_b]
    · intro x1
      simp only [memK, updB_b_same, emit_b]
      rw [hset.1.mem_erase_iff]
      constructor
      · rintro ⟨hne, hm⟩; exact ⟨hm, by simpa using hne⟩
      · rintro ⟨hm, hne⟩; exact ⟨by simpa using hne, hm⟩
    · intro v
      by_cases hv : v = some y0
      · subst hv
        simp only [WFK, updB_b_same, emit_b]
        refine ⟨WFset_erase _ _ hset, hseqnd.erase _, fun v => ?_⟩
        rw [hseqnd.mem_erase_iff, hset.1.mem_erase_iff]
        simp only [hiff]
      · rw [WFK, updB_b_other _ _ _ _ hv, updB_b_other _ _ _ _ hv]
        simp only [emit_b]
        exact hwf v

/-- Mirror image of `dissocB_spec` for the A side. -/
theorem dissocA_spec (k1 : Kind) (y0 x0 : Nat) (s : St)
    (hA : memK k1 (s.a (some y0)) (some x0))
    (hwf : ∀ v, WFK k1 (s.a v)) :
    ∃ s2, dissocA k1 (some y0) (some x0) s = .ok s2 ∧
      s2.b = s.b ∧
      (∀ v, v ≠ some y0 → s2.a v = s.a v) ∧
      (∀ x1 : Nat, memK k1 (s2.a (some y0)) (some x1) ↔
        (memK k1 (s.a (some y0)) (some x1) ∧ x1 ≠ x0)) ∧
      (∀ v, WFK k1 (s2.a v)) := by
  cases k1 with
  | one =>
    refine ⟨updA (emit s (.dissocA (some y0) (some x0))) (some y0)
      (fun c => { c with value := none }), rfl, rfl, ?_, ?_, ?_⟩
    · intro v hv
      simp only [updA_a_other _ _ _ _ hv, emit_a]
    · intro x1
      simp only [memK] at hA ⊢
      simp only [updA_a_same, emit_a]
      constructor
      · intro h; exact absurd h (by simp)
      · rintro ⟨h1, h2⟩
        exact absurd (Option.some_injective _ (hA.symm.trans h1)).symm h2
    · intro v; trivial
  | many =>
    simp only [memK] at hA
    have hwfy := hwf (some y0)
    simp only [WFK] at hwfy
    have hrun : dissocA .many (some y0) (some x0) s =
        .ok (updA (emit s (.dissocA (some y0) (some x0))) (some y0)
          (fun c => { c with values := c.values.erase (some x0) })) := by
      simp only [dissocA, emit_a, if_pos hA]
    refine ⟨_, hrun, rfl, ?_, ?_, ?_⟩
    · intro v hv
      simp only [updA_a_other _ _ _ _ hv, emit_a]
    · intro x1
      simp only [memK, updA_a_same, emit_a]
      rw [hwfy.1.mem_erase_iff]
      constructor
      · rintro ⟨hne, hm⟩; exact ⟨hm, by simpa using hne⟩
      · rintro ⟨hm, hne⟩; exact ⟨by simpa using hne, hm⟩
    · intro v
      by_cases hv : v = some y0
      · subst hv
        simp only [WFK, updA_a_same, emit_a]
        exact WFset_erase _ _ (hwf _)
      · simp only [WFK, updA_a_other _ _ _ _ hv, emit_a]
        exact hwf _
  | ordered =>
    simp only [memK] at hA
    obtain ⟨hset, hseqnd, hiff⟩ := hwf (some y0)
    have hseq : (some x0) ∈ (s.a (some y0)).seq := (hiff _).mpr hA
    have hrun : dissocA .ordered (some y0) (some x0) s =
        .ok (updA (updA (emit s (.dissocA (some y0) (some x0))) (some y0)
              (fun c => { c with values := c.values.erase (some x0) })) (some y0)
          (fun c => { c with seq := c.seq.erase (some x0) })) := by
      simp only [dissocA, emit_a, if_pos hA, updA_a_same, if_pos hseq]
    refine ⟨_, hrun, rfl, ?_, ?_, ?_⟩
    · intro v hv
      rw [updA_a_other _ _ _ _ hv, updA_a_other _ _ _ _ hv]
      simp only [emit_a]
    · intro x1
      simp only [memK, updA_a_same, emit_a]
      rw [hset.1.mem_erase_iff]
      constructor
      · rintro ⟨hne, hm⟩; exact ⟨hm, by simpa using hne⟩
      · rintro ⟨hm, hne⟩; exact ⟨by simpa using hne, hm⟩
    · intro v
      by_cases hv : v = some y0
      · subst hv
        simp only [WFK, updA_a_same, emit_a]
        refine ⟨WFset_erase _ _ hset, hseqnd.erase _, fun v => ?_⟩
        rw [hseqnd.mem_erase_iff, hset.1.mem_erase_iff]
        simp only [hiff]
      · rw [WFK, updA_a_other _ _ _ _ hv, updA_a_other _ _ _ _ hv]
        simp only [emit_a]
        exact hwf v

/-- Behaviour of `associate` on the B side.  Preconditions: both sides
well-formed; for an ordered peer the `assert other not in coll.values`
precondition; and, when the peer is a singleton and already occupied by a
different object `m`, referential symmetry for the cascaded
`self.peer.dissociate(coll.value, own)` call (`own` must be a member of
`m`'s A-side container).  The call succeeds; only the container of `own`
changes on the B side, gaining exactly the pair `(own, other)` (for a
singleton peer, replacing the previous occupant); on the A side either
nothing changes or the displaced previous occupant loses its association to
`own`; and well-formedness is preserved. -/
theorem assocB_spec (k1 k2 : Kind) (y0 x0 : Nat) (s : St)
    (hwfa : ∀ v, WFK k1 (s.a v))
    (hwfb : ∀ v, WFK k2 (s.b v))
    (hord : k2 = .ordered → ¬ memK k2 (s.b (some y0)) (some x0))
    (hcasc : ∀ m : Nat, k2 = .one → (s.b (some y0)).value = some m →
      (s.b (some y0)).value ≠ some x0 → memK k1 (s.a (some m)) (some y0)) :
    ∃ s2, assocB k1 k2 (some y0) (some x0) s = .ok s2 ∧
      (∀ v, v ≠ some y0 → s2.b v = s.b v) ∧
      (∀ x1 : Nat, memK k2 (s2.b (some y0)) (some x1) ↔
        (x1 = x0 ∨ (k2 ≠ .one ∧ memK k2 (s.b (some y0)) (some x1)))) ∧
      (∀ x1 y1 : Nat, memK k1 (s2.a (some x1)) (some y1) ↔
        (memK k1 (s.a (some x1)) (some y1) ∧
          ¬(k2 = .one ∧ (s.b (some y0)).value = some x1 ∧
            (s.b (some y0)).value ≠ some x0 ∧ y1 = y0))) ∧
      (∀ v, WFK k1 (s2.a v)) ∧ (∀ v, WFK k2 (s2.b v)) := by
  cases k2 with
  | one =>
    by_cases hval : (s.b (some y0)).value = some x0
    · have hrun : assocB k1 .one (some y0) (some x0) s =
          .ok (emit s (.assocB (some y0) (some x0))) := by
        simp only [assocB, emit_b, if_pos hval]
      refine ⟨_, hrun, fun v _ => rfl, ?_, ?_, hwfa, fun v => trivial⟩
      · intro x1
        simp only [memK, emit_b, hval]
        simp [eq_comm]
      · intro x1 y1
        simp only [emit_a, hval, ne_eq, not_true_eq_false, false_and, and_false,
          not_false_eq_true, and_true]
    · by_cases hnone : (s.b (some y0)).value = none
      · have hrun : assocB k1 .one (some y0) (some x0) s =
            .ok (updB (emit s (.assocB (some y0) (some x0))) (some y0)
              (fun c => { c with value := some x0 })) := by
          simp only [assocB, emit_b, if_neg hval, if_neg (not_not_intro hnone),
            bindR_ok]
        refine ⟨_, hrun, ?_, ?_, ?_, hwfa, fun v => trivial⟩
        · intro v hv
          simp only [updB_b_other _ _ _ _ hv, emit_b]
        · intro x1
          simp only [memK, updB_b_same, emit_b]
          simp [eq_comm]
        · intro x1 y1
          simp only [emit_a, updB_a, hnone]
          simp
      · obtain ⟨m, hm⟩ : ∃ m, (s.b (some y0)).value = some m := by
          cases hv : (s.b (some y0)).value with
          | none => exact absurd hv hnone
          | some m => exact ⟨m, rfl⟩
        have hmne : some m ≠ some x0 := fun h => hval (hm.trans h)
        have hmem : memK k1 (s.a (some m)) (some y0) :=
          hcasc m rfl hm (hm ▸ hmne)
        obtain ⟨s1, hrun1, hb1, ha1other, ha1mem, hwfa1⟩ :=
          dissocA_spec k1 m y0 (emit s (.assocB (some y0) (some x0)))
            (by simpa only [emit_a] using hmem)
            (by intro v; simpa only [emit_a] using hwfa v)
        have hrun : assocB k1 .one (some y0) (some x0) s =
            .ok (updB s1 (some y0) (fun c => { c with value := some x0 })) := by
          simp only [assocB, emit_b, if_neg hval]
          rw [if_pos (show (s.b (some y0)).value ≠ none by rw [hm]; simp), hm,
            hrun1, bindR_ok]
        have hb1' : ∀ v, s1.b v = s.b v := fun v => by rw [hb1]; rfl
        have ha1mem' : ∀ x1 : Nat, memK k1 (s1.a (some m)) (some x1) ↔
            (memK k1 (s.a (some m)) (some x1) ∧ x1 ≠ y0) := by
          simpa only [emit_a] using ha1mem
        refine ⟨_, hrun, ?_, ?_, ?_, hwfa1, fun v => trivial⟩
        · intro v hv
          rw [updB_b_other _ _ _ _ hv, hb1']
        · intro x1
          simp only [memK, updB_b_same]
          simp [eq_comm]
        · intro x1 y1
          rw [updB_a]
          by_cases hx1 : x1 = m
          · subst hx1
            rw [ha1mem' y1]
            constructor
            · rintro ⟨h1, h2⟩
              exact ⟨h1, fun h => h2 h.2.2.2⟩
            · rintro ⟨h1, h2⟩
              exact ⟨h1, fun hy => h2 ⟨rfl, hm, hval, hy⟩⟩
          · rw [ha1other _ (fun h => hx1 (Option.some_injective _ h))]
            simp only [emit_a]
            constructor
            · intro h
              refine ⟨h, ?_⟩
              rintro ⟨-, hx, -, -⟩
              exact hx1 (Option.some_injective _ (hm.symm.trans hx).symm)
            · rintro ⟨h, -⟩
              exact h
  | many =>
    have hrun : assocB k1 .many (some y0) (some x0) s =
        .ok (updB (emit s (.assocB (some y0) (some x0))) (some y0)
          (fun c => { c with values := setAdd c.values (some x0) })) := rfl
    refine ⟨_, hrun, ?_, ?_, ?_, hwfa, ?_⟩
    · intro v hv
      simp only [updB_b_other _ _ _ _ hv, emit_b]
    · intro x1
      simp only [memK, updB_b_same, emit_b, mem_setAdd]
      simp only [Option.some.injEq]
      tauto
    · intro x1 y1
      simp only [emit_a, updB_a]
      simp
    · intro v
      by_cases hv : v = some y0
      · subst hv
        simp only [WFK, updB_b_same, emit_b]
        exact WFset_setAdd _ _ (hwfb _) (by simp)
      · rw [WFK, updB_b_other _ _ _ _ hv]
        simp only [emit_b]
        exact hwfb v
  | ordered =>
    have hx0 : some x0 ∉ (s.b (some y0)).values := hord rfl
    obtain ⟨hset, hseqnd, hiff⟩ := hwfb (some y0)
    have hx0seq : some x0 ∉ (s.b (some y0)).seq := fun h => hx0 ((hiff _).mp h)
    have hrun : assocB k1 .ordered (some y0) (some x0) s =
        .ok (updB (emit s (.assocB (some y0) (some x0))) (some y0)
          (fun c => { c with values := setAdd c.values (some x0), seq := c.seq ++ [some x0] })) := by
      simp only [assocB, emit_b, if_neg hx0]
    refine ⟨_, hrun, ?_, ?_, ?_, hwfa, ?_⟩
    · intro v hv
      simp only [updB_b_other _ _ _ _ hv, emit_b]
    · intro x1
      simp only [memK, updB_b_same, emit_b, mem_setAdd]
      simp only [Option.some.injEq]
      tauto
    · intro x1 y1
      simp only [emit_a, updB_a]
      simp
    · intro v
      by_cases hv : v = some y0
      · subst hv
        simp only [WFK, updB_b_same, emit_b]
        refine ⟨WFset_setAdd _ _ hset (by simp), ?_, ?_⟩
        · have := nodup_setAdd (s.b (some y0)).seq (some x0) hseqnd
          rwa [setAdd, if_neg hx0seq] at this
        · intro v
          simp only [List.mem_append, List.mem_singleton, mem_setAdd, hiff]
      · rw [WFK, updB_b_other _ _ _ _ hv]
        simp only [emit_b]
        exact hwfb v

/-!
## Invariant preservation, operation by operation
-/

/-- A value that passed `validate_object` is a real object. -/
theorem validate_some {ty : Nat → Bool} {v : V} (h : ¬ validate_object ty v = false) :
    ∃ n, v = some n := by
  cases v with
  | none => exact absurd rfl h
  | some n => exact ⟨n, rfl⟩

/-- `SetAssociation.add` preserves the engine invariant (and, when it raises,
raises before any mutation). -/
theorem set_add_inv (ty : Nat → Bool) (k2 : Kind) (x : Nat) (v : V) (s : St)
    (h : Inv .many k2 s) : Inv .many k2 (stateOf (set_add ty k2 x v s)) := by
  obtain ⟨hsym, hwfa, hwfb⟩ := h
  by_cases hmem : v ∈ (s.a (some x)).values
  · simpa [set_add, if_pos hmem] using ⟨hsym, hwfa, hwfb⟩
  · by_cases hty : validate_object ty v = false
    · simpa [set_add, if_neg hmem, if_pos hty] using ⟨hsym, hwfa, hwfb⟩
    · obtain ⟨v0, rfl⟩ := validate_some hty
      have hs1 : set_add ty k2 x (some v0) s =
          assocB .many k2 (some v0) (some x)
            (updA s (some x) fun c => { c with values := setAdd c.values (some v0) }) := by
        simp [set_add, if_neg hmem, if_neg hty]
      set s1 := updA s (some x) fun c => { c with values := setAdd c.values (some v0) } with hs1def
      have ha1 : ∀ x1 : Nat, ∀ y1 : Nat, memK .many (s1.a (some x1)) (some y1) ↔
          (memK .many (s.a (some x1)) (some y1) ∨ (x1 = x ∧ y1 = v0)) := by
        intro x1 y1
        by_cases hx1 : some x1 = (some x : V)
        · rw [hs1def, show x1 = x from Option.some_injective _ hx1] at *
          simp [memK, mem_setAdd]
        · rw [hs1def, memK, updA_a_other _ _ _ _ hx1]
          simp only [memK]
          constructor
          · exact Or.inl
          · rintro (hm | ⟨hx, -⟩)
            · exact hm
            · exact absurd (congrArg some hx) hx1
      have hwfa1 : ∀ w, WFK .many (s1.a w) := by
        intro w
        by_cases hw : w = (some x : V)
        · subst hw
          rw [hs1def, WFK, updA_a_same]
          exact WFset_setAdd _ _ (hwfa _) (by simp)
        · rw [hs1def, WFK, updA_a_other _ _ _ _ hw]
          exact hwfa w
      have hb1 : s1.b = s.b := rfl
      obtain ⟨s2, hrun2, hbother, hbmem, hamem, hwfa2, hwfb2⟩ :=
        assocB_spec .many k2 v0 x s1 hwfa1 (hb1 ▸ hwfb)
          (by
            intro hk
            rw [hb1]
            intro hc
            exact hmem ((hsym x v0).mpr hc))
          (by
            intro m hk hval hne
            rw [hb1] at hval
            have hmem2 : memK .many (s.a (some m)) (some v0) := by
              refine (hsym m v0).mpr ?_
              rw [hk, memK, hval]
            exact (ha1 m v0).mpr (Or.inl hmem2))
      rw [hs1, hrun2, stateOf_ok]
      refine ⟨?_, hwfa2, hwfb2⟩
      intro x1 y1
      rw [hamem x1 y1, ha1 x1 y1]
      by_cases hy1 : y1 = v0
      · subst hy1
        rw [hbmem x1]
        by_cases hx1 : x1 = x
        · subst hx1
          constructor
          · intro _; exact Or.inl rfl
          · intro _
            refine ⟨Or.inr ⟨rfl, rfl⟩, ?_⟩
            rintro ⟨hk, hveq, hvne, -⟩
            rw [hb1] at hveq hvne
            exact hvne hveq
        · have hbold : memK k2 (s.b (some y1)) (some x1) ↔
              memK .many (s.a (some x1)) (some y1) := (hsym x1 y1).symm
          rw [hb1]
          constructor
          · rintro ⟨(hm | ⟨hx, -⟩), hnc⟩
            · right
              refine ⟨?_, hbold.mpr hm⟩
              intro hk
              subst hk
              have : (s.b (some y1)).value = some x1 := hbold.mpr hm
              exact hnc ⟨rfl, this, fun he => hx1 (Option.some_injective _ (this.symm.trans he)), rfl⟩
            · exact absurd hx hx1
          · rintro (hx | ⟨hk, hm⟩)
            · exact absurd hx hx1
            · refine ⟨Or.inl (hbold.mp hm), ?_⟩
              rintro ⟨hk2, -, -, -⟩
              exact hk hk2
      · have hnc : ¬(k2 = .one ∧ (s1.b (some v0)).value = some x1 ∧
            (s1.b (some v0)).value ≠ some x ∧ y1 = v0) := by
          rintro ⟨-, -, -, hy⟩
          exact hy1 hy
        have hbother1 : s2.b (some y1) = s.b (some y1) := by
          rw [hbother _ (by simpa using (fun h => hy1 h : y1 = v0 → False)), hb1]
        rw [hbother1]
        constructor
        · rintro ⟨(hm | ⟨-, hy⟩), -⟩
          · exact (hsym x1 y1).mp hm
          · exact absurd hy hy1
        · intro hm
          exact ⟨Or.inl ((hsym x1 y1).mpr hm), hnc⟩

/-- `SetAssociation.discard` preserves the engine invariant. -/
theorem set_discard_inv (k2 : Kind) (x : Nat) (v : V) (s : St)
    (h : Inv .many k2 s) : Inv .many k2 (stateOf (set_discard k2 x v s)) := by
  obtain ⟨hsym, hwfa, hwfb⟩ := h
  by_cases hmem : v ∈ (s.a (some x)).values
  · obtain ⟨v0, rfl⟩ : ∃ n, v = some n := by
      cases v with
      | none => exact absurd hmem (hwfa (some x)).2
      | some n => exact ⟨n, rfl⟩
    have hs1 : set_discard k2 x (some v0) s =
        dissocB k2 (some v0) (some x)
          (updA s (some x) fun c => { c with values := c.values.erase (some v0) }) := by
      simp [set_discard, if_pos hmem]
    set s1 := updA s (some x) fun c => { c with values := c.values.erase (some v0) } with hs1def
    have hb1 : s1.b = s.b := rfl
    have ha1 : ∀ x1 : Nat, ∀ y1 : Nat, memK .many (s1.a (some x1)) (some y1) ↔
        (memK .many (s.a (some x1)) (some y1) ∧ ¬(x1 = x ∧ y1 = v0)) := by
      intro x1 y1
      by_cases hx1 : some x1 = (some x : V)
      · rw [hs1def, show x1 = x from Option.some_injective _ hx1] at *
        simp only [memK, updA_a_same]
        rw [(hwfa (some x)).1.mem_erase_iff]
        constructor
        · rintro ⟨hne, hm⟩
          exact ⟨hm, by simpa using hne⟩
        · rintro ⟨hm, hne⟩
          exact ⟨by simpa using hne, hm⟩
      · rw [hs1def, memK, updA_a_other _ _ _ _ hx1]
        simp only [memK]
        constructor
        · intro hm
          refine ⟨hm, ?_⟩
          rintro ⟨hx, -⟩
          exact hx1 (congrArg some hx)
        · rintro ⟨hm, -⟩
          exact hm
    have hwfa1 : ∀ w, WFK .many (s1.a w) := by
      intro w
      by_cases hw : w = (some x : V)
      · subst hw
        rw [hs1def, WFK, updA_a_same]
        exact WFset_erase _ _ (hwfa _)
      · rw [hs1def, WFK, updA_a_other _ _ _ _ hw]
        exact hwfa w
    obtain ⟨s2, hrun2, ha2, hbother, hbmem, hwfb2⟩ :=
      dissocB_spec k2 v0 x s1 (by rw [hb1]; exact (hsym x v0).mp hmem) (hb1 ▸ hwfb)
    rw [hs1, hrun2, stateOf_ok]
    refine ⟨?_, ha2 ▸ hwfa1, hwfb2⟩
    intro x1 y1
    rw [show s2.a = s1.a from ha2, ha1 x1 y1]
    by_cases hy1 : y1 = v0
    · subst hy1
      rw [hbmem x1]
      rw [hb1, show memK k2 (s.b (some y1)) (some x1) ↔
            memK .many (s.a (some x1)) (some y1) from (hsym x1 y1).symm]
      by_cases hx1 : x1 = x
      · subst hx1
        simp
      · constructor
        · rintro ⟨hm, -⟩
          exact ⟨hm, hx1⟩
        · rintro ⟨hm, -⟩
          refine ⟨hm, ?_⟩
          rintro ⟨hx, -⟩
          exact hx1 hx
    · have hbu : s2.b (some y1) = s.b (some y1) := by
        rw [hbother _ (by simpa using (fun h => hy1 h : y1 = v0 → False)), hb1]
      rw [hbu]
      constructor
      · rintro ⟨hm, -⟩
        exact (hsym x1 y1).mp hm
      · intro hm
        refine ⟨(hsym x1 y1).mpr hm, ?_⟩
        rintro ⟨-, hy⟩
        exact hy1 hy
  · simpa [set_discard, if_neg hmem] using ⟨hsym, hwfa, hwfb⟩

/-- The dissociation loop of `SetAssociation.clear`: dissociating each member
of a duplicate-free list of associated objects succeeds and removes exactly
the pairs `(v, x)` for `v` in the list from the B side, touching nothing
else. -/
theorem clear_loop (k2 : Kind) (x : Nat) (l : List V) : ∀ s : St,
    l.Nodup →
    (∀ v ∈ l, ∃ v0, v = some v0 ∧ memK k2 (s.b v) (some x)) →
    (∀ v, WFK k2 (s.b v)) →
    ∃ s2, forList (fun v s => dissocB k2 v (some x) s) l s = .ok s2 ∧
      s2.a = s.a ∧
      (∀ y1 : Nat, (some y1 : V) ∉ l → s2.b (some y1) = s.b (some y1)) ∧
      (∀ y1 x1 : Nat, memK k2 (s2.b (some y1)) (some x1) ↔
        (memK k2 (s.b (some y1)) (some x1) ∧ ¬((some y1 : V) ∈ l ∧ x1 = x))) ∧
      (∀ v, WFK k2 (s2.b v)) := by
  induction l with
  | nil =>
    intro s _ _ hwfb
    exact ⟨s, rfl, rfl, fun _ _ => rfl, fun y1 x1 => by simp, hwfb⟩
  | cons v rest ih =>
    intro s hnd hmem hwfb
    obtain ⟨v0, rfl, hv0⟩ := hmem v (List.mem_cons_self v rest)
    obtain ⟨s1, hrun1, ha1, hbother1, hbmem1, hwfb1⟩ := dissocB_spec k2 v0 x s hv0 hwfb
    have hvrest : (some v0 : V) ∉ rest := (List.nodup_cons.mp hnd).1
    obtain ⟨s2, hrun2, ha2, hbother2, hbmem2, hwfb2⟩ :=
      ih s1 (List.nodup_cons.mp hnd).2
        (by
          intro w hw
          obtain ⟨w0, rfl, hw0⟩ := hmem w (List.mem_cons_of_mem _ hw)
          refine ⟨w0, rfl, ?_⟩
          rwa [hbother1 _ (fun he => hvrest (he ▸ hw))])
        hwfb1
    refine ⟨s2, ?_, ha2.trans ha1, ?_, ?_, hwfb2⟩
    · simp only [forList, hrun1, bindR_ok]
      exact hrun2
    · intro y1 hy1
      rw [hbother2 _ (fun h => hy1 (List.mem_cons_of_mem _ h)),
        hbother1 _ (fun h => hy1 (h ▸ List.mem_cons_self _ _))]
    · intro y1 x1
      rw [hbmem2 y1 x1]
      by_cases hy1 : y1 = v0
      · subst hy1
        rw [hbmem1 x1]
        constructor
        · rintro ⟨⟨hm, hne⟩, -⟩
          exact ⟨hm, by simp [hne]⟩
        · rintro ⟨hm, hnc⟩
          have hne : x1 ≠ x := fun he => hnc ⟨List.mem_cons_self _ _, he⟩
          exact ⟨⟨hm, hne⟩, fun hc => hvrest hc.1⟩
      · have hby : s1.b (some y1) = s.b (some y1) :=
          hbother1 _ (fun h => hy1 (Option.some_injective _ h))
        rw [hby]
        constructor
        · rintro ⟨hm, hnc⟩
          refine ⟨hm, ?_⟩
          rintro ⟨hin, hx⟩
          rcases List.mem_cons.mp hin with he | hin
          · exact hy1 (Option.some_injective _ he)
          · exact hnc ⟨hin, hx⟩
        · rintro ⟨hm, hnc⟩
          exact ⟨hm, fun hc => hnc ⟨List.mem_cons_of_mem _ hc.1, hc.2⟩⟩

/-- `SetAssociation.clear` preserves the engine invariant. -/
theorem set_clear_inv (k2 : Kind) (x : Nat) (s : St)
    (h : Inv .many k2 s) : Inv .many k2 (stateOf (set_clear k2 x s)) := by
  obtain ⟨hsym, hwfa, hwfb⟩ := h
  obtain ⟨s2, hrun, ha2, hbother, hbmem, hwfb2⟩ :=
    clear_loop k2 x (s.a (some x)).values s (hwfa (some x)).1
      (by
        intro v hv
        obtain ⟨v0, rfl⟩ : ∃ n, v = some n := by
          cases v with
          | none => exact absurd hv (hwfa (some x)).2
          | some n => exact ⟨n, rfl⟩
        exact ⟨v0, rfl, (hsym x v0).mp hv⟩)
      hwfb
  rw [set_clear, hrun, bindR_ok, stateOf_ok]
  constructor
  · intro x1 y1
    by_cases hx1 : some x1 = (some x : V)
    · rw [show x1 = x from Option.some_injective _ hx1] at *
      refine iff_of_false ?_ ?_
      · simp [memK]
      · rw [updA_b, hbmem y1 x]
        rintro ⟨hm, hnc⟩
        exact hnc ⟨(hsym x y1).mpr hm, rfl⟩
    · rw [updA_b,
        show (updA s2 (some x) fun c => { c with values := [] }).a (some x1) =
          s2.a (some x1) from updA_a_other _ _ _ _ hx1, ha2, hbmem y1 x1,
        show memK .many (s.a (some x1)) (some y1) ↔
          memK k2 (s.b (some y1)) (some x1) from hsym x1 y1]
      have hx1' : x1 ≠ x := fun h => hx1 (congrArg some h)
      constructor
      · intro hm
        exact ⟨hm, fun hc => hx1' hc.2⟩
      · rintro ⟨hm, -⟩
        exact hm
  refine ⟨?_, hwfb2⟩
  intro w
  by_cases hw : w = (some x : V)
  · subst hw
    rw [WFK, updA_a_same]
    exact ⟨List.nodup_nil, by simp⟩
  · rw [WFK, updA_a_other _ _ _ _ hw, ha2]
    exact hwfa w

/-- A property preserved by each iteration of a loop (also across a raise) is
preserved by the loop. -/
theorem forList_inv {P : St → Prop} (f : V → St → Res) (l : List V)
    (hf : ∀ v s, v ∈ l → P s → P (stateOf (f v s))) :
    ∀ s, P s → P (stateOf (forList f l s)) := by
  induction l with
  | nil => exact fun s hs => hs
  | cons v rest ih =>
    intro s hs
    have h1 := hf v s (List.mem_cons_self _ _) hs
    cases hfv : f v s with
    | error e =>
      rw [forList, hfv, bindR_error]
      rw [hfv] at h1
      exact h1
    | ok s1 =>
      rw [forList, hfv, bindR_ok]
      rw [hfv] at h1
      exact ih (fun w s hw => hf w s (List.mem_cons_of_mem _ hw)) s1 h1

/-- `SetAssociation.assign` preserves the engine invariant. -/
theorem set_assign_inv (ty : Nat → Bool) (k2 : Kind) (x : Nat) (xs : List V) (s : St)
    (h : Inv .many k2 s) : Inv .many k2 (stateOf (set_assign ty k2 x xs s)) := by
  have h1 := set_clear_inv k2 x s h
  rw [set_assign]
  cases hc : set_clear k2 x s with
  | error e =>
    rw [bindR_error]
    rw [hc] at h1
    exact h1
  | ok s1 =>
    rw [bindR_ok]
    rw [hc] at h1
    exact forList_inv _ xs (fun v s _ hs => set_add_inv ty k2 x v s hs) s1 h1

/-- `SingletonAssociation.set` preserves the engine invariant. -/
theorem singleton_set_inv (ty : Nat → Bool) (k2 : Kind) (x : Nat) (newv : V) (s : St)
    (h : Inv .one k2 s) : Inv .one k2 (stateOf (singleton_set ty k2 x newv s)) := by
  obtain ⟨hsym, hwfa, hwfb⟩ := h
  by_cases hty : newv ≠ none ∧ validate_object ty newv = false
  · simpa [singleton_set, if_pos hty] using ⟨hsym, hwfa, hwfb⟩
  · obtain ⟨s1, hrun1, ha1, hbmem1, hwfb1⟩ :
      ∃ s1, (if (s.a (some x)).value ≠ none
              then dissocB k2 ((s.a (some x)).value) (some x) s
              else .ok s) = .ok s1 ∧
        s1.a = s.a ∧
        (∀ y1 x1 : Nat, memK k2 (s1.b (some y1)) (some x1) ↔
          (memK k2 (s.b (some y1)) (some x1) ∧
            ¬((s.a (some x)).value = some y1 ∧ x1 = x))) ∧
        (∀ v, WFK k2 (s1.b v)) := by
      cases hold : (s.a (some x)).value with
      | none =>
        refine ⟨s, by simp, rfl, ?_, hwfb⟩
        intro y1 x1
        constructor
        · intro hm
          refine ⟨hm, ?_⟩
          rintro ⟨he, -⟩
          exact Option.noConfusion he
        · exact fun hc => hc.1
      | some v0 =>
        have hv0 : memK k2 (s.b (some v0)) (some x) := (hsym x v0).mp hold
        obtain ⟨s1, hrun, ha, hbother, hbmem, hwfb1⟩ := dissocB_spec k2 v0 x s hv0 hwfb
        refine ⟨s1, ?_, ha, ?_, hwfb1⟩
        · rw [if_pos (show (some v0 : V) ≠ none by simp)]
          exact hrun
        · intro y1 x1
          by_cases hy1 : y1 = v0
          · subst hy1
            rw [hbmem x1]
            constructor
            · rintro ⟨hm, hne⟩
              exact ⟨hm, by rintro ⟨-, hx⟩; exact hne hx⟩
            · rintro ⟨hm, hnc⟩
              exact ⟨hm, fun hx => hnc ⟨rfl, hx⟩⟩
          · rw [hbother _ (fun h => hy1 (Option.some_injective _ h))]
            constructor
            · intro hm
              refine ⟨hm, ?_⟩
              rintro ⟨he, -⟩
              exact hy1 (Option.some_injective _ he).symm
            · exact fun hc => hc.1
    simp only [singleton_set, if_neg hty, hrun1, bindR_ok]
    set s2 := updA s1 (some x) fun c => { c with value := newv } with hs2def
    have hb2 : s2.b = s1.b := rfl
    have ha2x : (s2.a (some x)).value = newv := by rw [hs2def]; simp
    have ha2other : ∀ w, w ≠ (some x : V) → s2.a w = s.a w := by
      intro w hw
      rw [hs2def, updA_a_other _ _ _ _ hw, ha1]
    cases hnv : newv with
    | none =>
      rw [if_neg (by simp), stateOf_ok]
      refine ⟨?_, fun v => trivial, hb2 ▸ hwfb1⟩
      intro x1 y1
      by_cases hx1 : some x1 = (some x : V)
      · rw [show x1 = x from Option.some_injective _ hx1] at *
        refine iff_of_false ?_ ?_
        · show ¬ (s2.a (some x)).value = some y1
          rw [ha2x, hnv]
          simp
        · rw [show s2.b (some y1) = s1.b (some y1) from rfl, hbmem1 y1 x]
          rintro ⟨hm, hnc⟩
          exact hnc ⟨(hsym x y1).mpr hm, rfl⟩
      · rw [show memK .one (s2.a (some x1)) (some y1) =
              memK .one (s.a (some x1)) (some y1) from by rw [ha2other _ hx1],
          show s2.b (some y1) = s1.b (some y1) from rfl, hbmem1 y1 x1,
          show memK .one (s.a (some x1)) (some y1) ↔
            memK k2 (s.b (some y1)) (some x1) from hsym x1 y1]
        have hx1' : x1 ≠ x := fun h => hx1 (congrArg some h)
        constructor
        · intro hm
          exact ⟨hm, fun hc => hx1' hc.2⟩
        · exact fun hc => hc.1
    | some n0 =>
      rw [if_pos (by simp)]
      obtain ⟨s3, hrun3, hbother3, hbmem3, hamem3, hwfa3, hwfb3⟩ :=
        assocB_spec .one k2 n0 x s2 (fun v => trivial) (hb2 ▸ hwfb1)
          (by
            intro hk hc
            rw [hb2] at hc
            rw [hbmem1 n0 x] at hc
            obtain ⟨hm, hnc⟩ := hc
            exact hnc ⟨(hsym x n0).mpr hm, rfl⟩)
          (by
            intro m hk hval hne
            subst hk
            rw [hb2] at hval hne
            have hm0 : memK .one (s.b (some n0)) (some m) := (hbmem1 n0 m).mp hval |>.1
            have hsm : memK .one (s.a (some m)) (some n0) := (hsym m n0).mpr hm0
            by_cases hmx : some m = (some x : V)
            · rw [show (some m : V) = some x from hmx]
              show (s2.a (some x)).value = some n0
              rw [ha2x]
              exact hnv
            · show (s2.a (some m)).value = some n0
              rw [ha2other _ hmx]
              exact hsm)
      rw [hrun3, stateOf_ok]
      refine ⟨?_, hwfa3, hwfb3⟩
      intro x1 y1
      rw [hamem3 x1 y1]
      by_cases hy1 : y1 = n0
      · subst hy1
        rw [hbmem3 x1]
        by_cases hx1 : x1 = x
        · subst hx1
          refine iff_of_true ⟨?_, ?_⟩ (Or.inl rfl)
          · exact ha2x.trans hnv
          · rintro ⟨-, hveq, hvne, -⟩
            exact hvne hveq
        · have hbn0 : memK k2 (s2.b (some y1)) (some x1) ↔
              memK k2 (s.b (some y1)) (some x1) := by
            rw [hb2, hbmem1 y1 x1]
            constructor
            · exact fun hc => hc.1
            · intro hm
              exact ⟨hm, fun hc => hx1 hc.2⟩
          constructor
          · rintro ⟨hm1, hnc⟩
            have hm1' : memK .one (s.a (some x1)) (some y1) := by
              rwa [show memK .one (s2.a (some x1)) (some y1) =
                memK .one (s.a (some x1)) (some y1) from by
                  rw [ha2other _ (fun h => hx1 (Option.some_injective _ h))]] at hm1
            right
            constructor
            · intro hk
              subst hk
              refine hnc ⟨rfl, ?_, ?_, rfl⟩
              · rw [hb2]
                refine (hbmem1 y1 x1).mpr ⟨(hsym x1 y1).mp hm1', ?_⟩
                rintro ⟨-, hx⟩
                exact hx1 hx
              · rw [hb2]
                intro he
                have := ((hbmem1 y1 x).mp he).1
                exact hx1 (Option.some_injective _
                  ((((hbmem1 y1 x1).mpr ⟨(hsym x1 y1).mp hm1', by
                      rintro ⟨-, hx⟩; exact hx1 hx⟩).symm.trans he)))
            · exact hbn0.mpr ((hsym x1 y1).mp hm1')
          · rintro (hx | ⟨hk, hm⟩)
            · exact absurd hx hx1
            · have hm' : memK k2 (s.b (some y1)) (some x1) := hbn0.mp hm
              have hma : memK .one (s.a (some x1)) (some y1) := (hsym x1 y1).mpr hm'
              refine ⟨?_, ?_⟩
              · rw [show memK .one (s2.a (some x1)) (some y1) =
                  memK .one (s.a (some x1)) (some y1) from by
                    rw [ha2other _ (fun h => hx1 (Option.some_injective _ h))]]
                exact hma
              · rintro ⟨hk2, -, -, -⟩
                exact hk hk2
      · have hb3y : s3.b (some y1) = s1.b (some y1) := by
          rw [hbother3 _ (by
            intro h
            exact hy1 (Option.some_injective _ h)), hb2]
        rw [hb3y, hbmem1 y1 x1]
        have hncend : ∀ P1 P2 P3 : Prop, ¬(P1 ∧ P2 ∧ P3 ∧ y1 = n0) := by
          intro P1 P2 P3
          rintro ⟨-, -, -, hy⟩
          exact hy1 hy
        by_cases hx1 : x1 = x
        · subst hx1
          refine iff_of_false ?_ ?_
          · rintro ⟨hm2, -⟩
            exact hy1 (Option.some_injective _
              (hnv.symm.trans (ha2x.symm.trans hm2))).symm
          · rintro ⟨hm, hnc⟩
            exact hnc ⟨(hsym x1 y1).mpr hm, rfl⟩
        · constructor
          · rintro ⟨hm2, -⟩
            rw [show memK .one (s2.a (some x1)) (some y1) =
              memK .one (s.a (some x1)) (some y1) from by
                rw [ha2other _ (fun h => hx1 (Option.some_injective _ h))]] at hm2
            exact ⟨(hsym x1 y1).mp hm2, fun hc => hx1 hc.2⟩
          · rintro ⟨hm, -⟩
            refine ⟨?_, hncend _ _ _⟩
            rw [show memK .one (s2.a (some x1)) (some y1) =
              memK .one (s.a (some x1)) (some y1) from by
                rw [ha2other _ (fun h => hx1 (Option.some_injective _ h))]]
            exact (hsym x1 y1).mpr hm

/-!
## List helpers for the ordered container proofs
-/

theorem insertIdx_perm : ∀ (n : Nat) (l : List V) (x : V), n ≤ l.length →
    (l.insertIdx n x).Perm (x :: l)
  | 0, l, x, _ => by simp
  | n + 1, [], x, h => absurd h (by simp)
  | n + 1, hd :: tl, x, h => by
      rw [List.insertIdx_succ_cons]
      exact ((insertIdx_perm n tl x (Nat.le_of_succ_le_succ h)).cons hd).trans
        (List.Perm.swap x hd tl)

theorem mem_foldl_setAdd (l : List V) : ∀ (init : List V) (v : V),
    v ∈ l.foldl setAdd init ↔ v ∈ init ∨ v ∈ l := by
  induction l with
  | nil => intro init v; simp
  | cons w rest ih =>
    intro init v
    rw [List.foldl_cons, ih, mem_setAdd]
    simp only [List.mem_cons]
    tauto

theorem nodup_foldl_setAdd (l : List V) : ∀ init : List V, init.Nodup →
    (l.foldl setAdd init).Nodup := by
  induction l with
  | nil => exact fun init h => h
  | cons w rest ih =>
    intro init h
    exact ih _ (nodup_setAdd _ _ h)

theorem WFset_foldl_setAdd (l : List V) (init : List V) (h : WFset init)
    (hl : none ∉ l) : WFset (l.foldl setAdd init) := by
  refine ⟨nodup_foldl_setAdd l init h.1, ?_⟩
  rw [mem_foldl_setAdd]
  rintro (hi | hm)
  · exact h.2 hi
  · exact hl hm

/-- The validation loop of slice assignment does not mutate and succeeds
exactly when every element validates. -/
theorem valloop_ok (ty : Nat → Bool) (ys : List V) (s : St)
    (h : ∀ v ∈ ys, validate_object ty v = true) :
    forList (fun v s => if validate_object ty v then .ok s else .error s) ys s = .ok s := by
  induction ys with
  | nil => rfl
  | cons v rest ih =>
    rw [forList, if_pos (h v (List.mem_cons_self _ _)), bindR_ok]
    exact ih (fun w hw => h w (List.mem_cons_of_mem _ hw))

theorem valloop_err (ty : Nat → Bool) (ys : List V) (s : St)
    (h : ¬ ∀ v ∈ ys, validate_object ty v = true) :
    forList (fun v s => if validate_object ty v then .ok s else .error s) ys s = .error s := by
  induction ys with
  | nil => exact absurd (by simp) h
  | cons v rest ih =>
    by_cases hv : validate_object ty v = true
    · rw [forList, if_pos hv, bindR_ok]
      refine ih ?_
      intro hrest
      refine h ?_
      intro w hw
      rcases List.mem_cons.mp hw with rfl | hw
      · exact hv
      · exact hrest w hw
    · rw [forList, if_neg hv, bindR_error]

/-- The Python slice decomposition: a list is its prefix before the slice,
the slice, and the suffix after it. -/
theorem seq_decomp (l : List V) (i j : Nat) :
    l.take (min i l.length) ++ pySlice l i j ++
      l.drop (max (min i l.length) (min j l.length)) = l := by
  set lo := min i l.length with hlo
  set hi := max (min i l.length) (min j l.length) with hhi
  have hlohi : lo ≤ hi := le_max_left _ _
  have hdrop : l.drop hi = (l.drop lo).drop (hi - lo) := by
    rw [List.drop_drop]
    congr 1
    omega
  rw [pySlice, ← hlo, ← hhi, hdrop, List.append_assoc, List.take_append_drop,
    List.take_append_drop]

theorem pySlice_sublist (l : List V) (i j : Nat) : (pySlice l i j).Sublist l :=
  (List.take_sublist _ _).trans (List.drop_sublist _ _)

/-- Elements of the Python slice `[i:j]` of `l` belong to `l`. -/
theorem pySlice_subset (l : List V) (i j : Nat) : pySlice l i j ⊆ l :=
  (pySlice_sublist l i j).subset

theorem pySlice_nodup (l : List V) (i j : Nat) (h : l.Nodup) :
    (pySlice l i j).Nodup := (pySlice_sublist l i j).nodup h

/-- Restoring referential symmetry after an "add one member then associate"
operation: if `s1` is `s` with the pair `(x, v0)` added on the A side, and
`s2` is the result of `assocB` for that pair on `s1` (described by the
conclusions of `assocB_spec`), then `s2` is symmetric again. -/
theorem addSym_restore (k1 k2 : Kind) (x v0 : Nat) (s s1 s2 : St)
    (hsym : Sym k1 k2 s)
    (hb1 : s1.b = s.b)
    (ha1 : ∀ x1 y1 : Nat, memK k1 (s1.a (some x1)) (some y1) ↔
      (memK k1 (s.a (some x1)) (some y1) ∨ (x1 = x ∧ y1 = v0)))
    (hbother : ∀ w, w ≠ (some v0 : V) → s2.b w = s1.b w)
    (hbmem : ∀ x1 : Nat, memK k2 (s2.b (some v0)) (some x1) ↔
      (x1 = x ∨ (k2 ≠ .one ∧ memK k2 (s1.b (some v0)) (some x1))))
    (hamem : ∀ x1 y1 : Nat, memK k1 (s2.a (some x1)) (some y1) ↔
      (memK k1 (s1.a (some x1)) (some y1) ∧
        ¬(k2 = .one ∧ (s1.b (some v0)).value = some x1 ∧
          (s1.b (some v0)).value ≠ some x ∧ y1 = v0))) :
    Sym k1 k2 s2 := by
  have hb1v : ∀ w, s1.b w = s.b w := fun w => by rw [hb1]
  intro x1 y1
  rw [hamem x1 y1, ha1 x1 y1]
  by_cases hy1 : y1 = v0
  · subst hy1
    rw [hbmem x1, hb1v]
    by_cases hx1 : x1 = x
    · subst hx1
      constructor
      · intro _
        exact Or.inl rfl
      · intro _
        refine ⟨Or.inr ⟨rfl, rfl⟩, ?_⟩
        rintro ⟨-, hveq, hvne, -⟩
        exact hvne hveq
    · have hbold : memK k2 (s.b (some y1)) (some x1) ↔
          memK k1 (s.a (some x1)) (some y1) := (hsym x1 y1).symm
      constructor
      · rintro ⟨(hm | ⟨hx, -⟩), hnc⟩
        · right
          refine ⟨?_, hbold.mpr hm⟩
          intro hk
          subst hk
          have hveq : (s.b (some y1)).value = some x1 := hbold.mpr hm
          refine hnc ⟨rfl, hveq, ?_, rfl⟩
          rw [hveq]
          intro he
          exact hx1 (Option.some_injective _ he)
        · exact absurd hx hx1
      · rintro (hx | ⟨hk, hm⟩)
        · exact absurd hx hx1
        · refine ⟨Or.inl (hbold.mp hm), ?_⟩
          rintro ⟨hk2, -, -, -⟩
          exact hk hk2
  · have hbu : s2.b (some y1) = s.b (some y1) := by
      rw [hbother _ (fun h => hy1 (Option.some_injective _ h)), hb1v]
    rw [hbu]
    constructor
    · rintro ⟨(hm | ⟨-, hy⟩), -⟩
      · exact (hsym x1 y1).mp hm
      · exact absurd hy hy1
    · intro hm
      refine ⟨Or.inl ((hsym x1 y1).mpr hm), ?_⟩
      rintro ⟨-, -, -, hy⟩
      exact hy1 hy

/-- `OrderedAssociation.insert` preserves the engine invariant. -/
theorem ord_insert_inv (ty : Nat → Bool) (k2 : Kind) (x i : Nat) (v : V) (s : St)
    (h : Inv .ordered k2 s) : Inv .ordered k2 (stateOf (ord_insert ty k2 x i v s)) := by
  obtain ⟨hsym, hwfa, hwfb⟩ := h
  by_cases hmem : v ∈ (s.a (some x)).values
  · simpa [ord_insert, if_pos hmem] using ⟨hsym, hwfa, hwfb⟩
  · by_cases hty : validate_object ty v = false
    · simpa [ord_insert, if_neg hmem, if_pos hty] using ⟨hsym, hwfa, hwfb⟩
    · obtain ⟨v0, rfl⟩ := validate_some hty
      have hs1 : ord_insert ty k2 x i (some v0) s =
          assocB .ordered k2 (some v0) (some x)
            (updA s (some x) fun c =>
              { c with seq := c.seq.insertIdx (min i c.seq.length) (some v0),
                       values := setAdd c.values (some v0) }) := by
        simp [ord_insert, if_neg hmem, if_neg hty]
      set s1 := updA s (some x) fun c =>
        { c with seq := c.seq.insertIdx (min i c.seq.length) (some v0),
                 values := setAdd c.values (some v0) } with hs1def
      have hb1 : s1.b = s.b := rfl
      obtain ⟨hsetx, hseqndx, hiffx⟩ := hwfa (some x)
      have hvnotseq : (some v0 : V) ∉ (s.a (some x)).seq :=
        fun hs => hmem ((hiffx _).mp hs)
      have hperm : ((s.a (some x)).seq.insertIdx
          (min i (s.a (some x)).seq.length) (some v0)).Perm
            ((some v0) :: (s.a (some x)).seq) :=
        insertIdx_perm _ _ _ (min_le_right _ _)
      have ha1 : ∀ x1 : Nat, ∀ y1 : Nat, memK .ordered (s1.a (some x1)) (some y1) ↔
          (memK .ordered (s.a (some x1)) (some y1) ∨ (x1 = x ∧ y1 = v0)) := by
        intro x1 y1
        by_cases hx1 : some x1 = (some x : V)
        · rw [hs1def, show x1 = x from Option.some_injective _ hx1] at *
          simp [memK, mem_setAdd]
        · rw [hs1def, memK, updA_a_other _ _ _ _ hx1]
          simp only [memK]
          constructor
          · exact Or.inl
          · rintro (hm | ⟨hx, -⟩)
            · exact hm
            · exact absurd (congrArg some hx) hx1
      have hwfa1 : ∀ w, WFK .ordered (s1.a w) := by
        intro w
        by_cases hw : w = (some x : V)
        · subst hw
          rw [hs1def, WFK, updA_a_same]
          refine ⟨WFset_setAdd _ _ hsetx (by simp), ?_, ?_⟩
          · rw [hperm.nodup_iff, List.nodup_cons]
            exact ⟨hvnotseq, hseqndx⟩
          · intro w
            rw [hperm.mem_iff, List.mem_cons, mem_setAdd, hiffx]
            tauto
        · rw [hs1def, WFK, updA_a_other _ _ _ _ hw]
          exact hwfa w
      obtain ⟨s2, hrun2, hbother, hbmem, hamem, hwfa2, hwfb2⟩ :=
        assocB_spec .ordered k2 v0 x s1 hwfa1 (hb1 ▸ hwfb)
          (by
            intro hk
            rw [hb1]
            intro hc
            exact hmem ((hsym x v0).mpr hc))
          (by
            intro m hk hval hne
            rw [hb1] at hval
            have hmem2 : memK .ordered (s.a (some m)) (some v0) := by
              refine (hsym m v0).mpr ?_
              rw [hk, memK, hval]
            exact (ha1 m v0).mpr (Or.inl hmem2))
      rw [hs1, hrun2, stateOf_ok]
      exact ⟨addSym_restore .ordered k2 x v0 s s1 s2 hsym hb1 ha1 hbother hbmem hamem,
        hwfa2, hwfb2⟩

theorem eraseIdx_eq_erase_get : ∀ (l : List V) (i : Nat) (hi : i < l.length), l.Nodup →
    l.eraseIdx i = l.erase (l.get ⟨i, hi⟩)
  | b :: tl, 0, _, _ => by
      simp [List.eraseIdx, List.erase_cons_head]
  | b :: tl, i + 1, hi, hnd => by
      have hi2 : i < tl.length := Nat.lt_of_succ_lt_succ hi
      have hmem : tl.get ⟨i, hi2⟩ ∈ tl := List.get_mem _ _ _
      have hbne : b ≠ tl.get ⟨i, hi2⟩ :=
        fun he => (List.nodup_cons.mp hnd).1 (he ▸ hmem)
      have hbne2 : ¬(b == tl.get ⟨i, hi2⟩) = true := by simpa using hbne
      rw [List.eraseIdx_cons_succ, List.get_cons_succ, List.erase_cons_tail hbne2,
        eraseIdx_eq_erase_get tl i hi2 (List.nodup_cons.mp hnd).2]

/-- Restoring referential symmetry after a "remove one member then
dissociate" operation: if `s1` is `s` with the pair `(x, u0)` removed on the
A side, and `s2` is the result of `dissocB` for that pair on `s1`, then `s2`
is symmetric again. -/
theorem delSym_restore (k1 k2 : Kind) (x u0 : Nat) (s s1 s2 : St)
    (hsym : Sym k1 k2 s)
    (hb1 : s1.b = s.b)
    (ha1 : ∀ x1 y1 : Nat, memK k1 (s1.a (some x1)) (some y1) ↔
      (memK k1 (s.a (some x1)) (some y1) ∧ ¬(x1 = x ∧ y1 = u0)))
    (ha2 : s2.a = s1.a)
    (hbother : ∀ w, w ≠ (some u0 : V) → s2.b w = s1.b w)
    (hbmem : ∀ x1 : Nat, memK k2 (s2.b (some u0)) (some x1) ↔
      (memK k2 (s1.b (some u0)) (some x1) ∧ x1 ≠ x)) :
    Sym k1 k2 s2 := by
  have hb1v : ∀ w, s1.b w = s.b w := fun w => by rw [hb1]
  intro x1 y1
  rw [show s2.a = s1.a from ha2, ha1 x1 y1]
  by_cases hy1 : y1 = u0
  · subst hy1
    rw [hbmem x1, hb1v,
      show memK k2 (s.b (some y1)) (some x1) ↔
        memK k1 (s.a (some x1)) (some y1) from (hsym x1 y1).symm]
    by_cases hx1 : x1 = x
    · subst hx1
      simp
    · constructor
      · rintro ⟨hm, -⟩
        exact ⟨hm, hx1⟩
      · rintro ⟨hm, -⟩
        refine ⟨hm, ?_⟩
        rintro ⟨hx, -⟩
        exact hx1 hx
  · have hbu : s2.b (some y1) = s.b (some y1) := by
      rw [hbother _ (fun h => hy1 (Option.some_injective _ h)), hb1v]
    rw [hbu]
    constructor
    · rintro ⟨hm, -⟩
      exact (hsym x1 y1).mp hm
    · intro hm
      refine ⟨(hsym x1 y1).mpr hm, ?_⟩
      rintro ⟨-, hy⟩
      exact hy1 hy

/-- `OrderedAssociation.__delitem__` with an integer index preserves the
engine invariant. -/
theorem ord_delI_inv (k2 : Kind) (x i : Nat) (s : St)
    (h : Inv .ordered k2 s) : Inv .ordered k2 (stateOf (ord_delI k2 x i s)) := by
  obtain ⟨hsym, hwfa, hwfb⟩ := h
  obtain ⟨hsetx, hseqndx, hiffx⟩ := hwfa (some x)
  by_cases hi : i < (s.a (some x)).seq.length
  · set u := (s.a (some x)).seq.get ⟨i, hi⟩ with hu
    have hu_seq : u ∈ (s.a (some x)).seq := List.get_mem _ _ _
    have hu_val : u ∈ (s.a (some x)).values := (hiffx u).mp hu_seq
    obtain ⟨u0, hu0⟩ : ∃ n, u = some n := by
      cases hun : u with
      | none => exact absurd (hun ▸ hu_val) hsetx.2
      | some n => exact ⟨n, rfl⟩
    have herase : (s.a (some x)).seq.eraseIdx i = (s.a (some x)).seq.erase u :=
      eraseIdx_eq_erase_get _ i hi hseqndx
    have hrun : ord_delI k2 x i s = dissocB k2 u (some x)
        (updA (updA s (some x) fun c => { c with seq := c.seq.eraseIdx i })
          (some x) fun c => { c with values := c.values.erase u }) := by
      rw [ord_delI, dif_pos hi]
      rw [if_pos (by simpa using hu_val)]
    set s2 := updA (updA s (some x) fun c => { c with seq := c.seq.eraseIdx i })
      (some x) fun c => { c with values := c.values.erase u } with hs2def
    have hb2 : s2.b = s.b := rfl
    have ha2vals : (s2.a (some x)).values = (s.a (some x)).values.erase u := by
      rw [hs2def]; simp
    have ha2seq : (s2.a (some x)).seq = (s.a (some x)).seq.eraseIdx i := by
      rw [hs2def]; simp
    have ha2other : ∀ w, w ≠ (some x : V) → s2.a w = s.a w := by
      intro w hw
      rw [hs2def, updA_a_other _ _ _ _ hw, updA_a_other _ _ _ _ hw]
    have ha2mem : ∀ x1 y1 : Nat, memK .ordered (s2.a (some x1)) (some y1) ↔
        (memK .ordered (s.a (some x1)) (some y1) ∧ ¬(x1 = x ∧ y1 = u0)) := by
      intro x1 y1
      by_cases hx1 : some x1 = (some x : V)
      · rw [show x1 = x from Option.some_injective _ hx1] at *
        show (some y1) ∈ (s2.a (some x)).values ↔ _
        rw [ha2vals, hsetx.1.mem_erase_iff]
        constructor
        · rintro ⟨hne, hm⟩
          refine ⟨hm, ?_⟩
          rintro ⟨-, hy⟩
          exact hne (hy ▸ hu0.symm)
        · rintro ⟨hm, hnc⟩
          refine ⟨?_, hm⟩
          rw [hu0]
          intro he
          exact hnc ⟨rfl, Option.some_injective _ he⟩
      · rw [show memK .ordered (s2.a (some x1)) (some y1) =
              memK .ordered (s.a (some x1)) (some y1) from by rw [ha2other _ hx1]]
        constructor
        · intro hm
          refine ⟨hm, ?_⟩
          rintro ⟨hx, -⟩
          exact hx1 (congrArg some hx)
        · exact fun hc => hc.1
    have hwfa2 : ∀ w, WFK .ordered (s2.a w) := by
      intro w
      by_cases hw : w = (some x : V)
      · subst hw
        refine ⟨?_, ?_, ?_⟩
        · rw [ha2vals]
          exact WFset_erase _ _ hsetx
        · rw [ha2seq, herase]
          exact hseqndx.erase _
        · intro w
          rw [ha2vals, ha2seq, herase, hseqndx.mem_erase_iff, hsetx.1.mem_erase_iff,
            hiffx]
      · rw [WFK, ha2other _ hw]
        exact hwfa w
    obtain ⟨s3, hrun3, ha3, hbother3, hbmem3, hwfb3⟩ :=
      dissocB_spec k2 u0 x s2 (by rw [hb2]; exact (hsym x u0).mp (hu0 ▸ hu_val)) (hb2 ▸ hwfb)
    rw [hrun, hu0, hrun3, stateOf_ok]
    refine ⟨?_, fun w => ha3 ▸ hwfa2 w, hwfb3⟩
    exact delSym_restore .ordered k2 x u0 s s2 s3 hsym hb2 ha2mem ha3 hbother3 hbmem3
  · simpa [ord_delI, dif_neg hi] using ⟨hsym, hwfa, hwfb⟩

/-- Replacing the element at a valid index of a duplicate-free list by a
fresh value keeps it duplicate-free, and the members are the old members
minus the replaced element plus the new value. -/
theorem set_nodup_mem : ∀ (l : List V) (i : Nat) (hi : i < l.length) (v : V),
    l.Nodup → v ∉ l →
    (l.set i v).Nodup ∧
      ∀ w, w ∈ l.set i v ↔ ((w ∈ l ∧ w ≠ l.get ⟨i, hi⟩) ∨ w = v)
  | b :: tl, 0, _, v, hnd, hv => by
      obtain ⟨hb, htl⟩ := List.nodup_cons.mp hnd
      refine ⟨List.nodup_cons.mpr ⟨fun hvtl => hv (List.mem_cons_of_mem _ hvtl), htl⟩, ?_⟩
      intro w
      simp only [List.set_cons_zero, List.mem_cons, List.get_cons_zero]
      constructor
      · rintro (rfl | hw)
        · exact Or.inr rfl
        · refine Or.inl ⟨Or.inr hw, ?_⟩
          rintro rfl
          exact hb hw
      · rintro (⟨rfl | hw, hne⟩ | rfl)
        · exact absurd rfl hne
        · exact Or.inr hw
        · exact Or.inl rfl
  | b :: tl, i + 1, hi, v, hnd, hv => by
      obtain ⟨hb, htl⟩ := List.nodup_cons.mp hnd
      have hi2 : i < tl.length := Nat.lt_of_succ_lt_succ hi
      have hvt : v ∉ tl := fun hw => hv (List.mem_cons_of_mem _ hw)
      have hbv : b ≠ v := fun he => hv (he ▸ List.mem_cons_self _ _)
      obtain ⟨hnd2, hmem2⟩ := set_nodup_mem tl i hi2 v htl hvt
      have hget : tl.get ⟨i, hi2⟩ ∈ tl := List.get_mem _ _ _
      refine ⟨List.nodup_cons.mpr ⟨?_, hnd2⟩, ?_⟩
      · intro hbs
        rcases (hmem2 b).mp hbs with ⟨hbtl, -⟩ | rfl
        · exact hb hbtl
        · exact hbv rfl
      · intro w
        rw [List.set_cons_succ, List.mem_cons, hmem2 w, List.get_cons_succ]
        simp only [List.mem_cons]
        constructor
        · rintro (rfl | ⟨hw, hne⟩ | rfl)
          · refine Or.inl ⟨Or.inl rfl, ?_⟩
            intro he
            exact hb (he ▸ hget)
          · exact Or.inl ⟨Or.inr hw, hne⟩
          · exact Or.inr rfl
        · rintro (⟨rfl | hw, hne⟩ | rfl)
          · exact Or.inl rfl
          · exact Or.inr (Or.inl ⟨hw, hne⟩)
          · exact Or.inr (Or.inr rfl)

/-- `OrderedAssociation.__setitem__` with an integer index preserves the
engine invariant. -/
theorem ord_setI_inv (ty : Nat → Bool) (k2 : Kind) (x i : Nat) (newv : V) (s : St)
    (h : Inv .ordered k2 s) : Inv .ordered k2 (stateOf (ord_setI ty k2 x i newv s)) := by
  obtain ⟨hsym, hwfa, hwfb⟩ := h
  obtain ⟨hsetx, hseqndx, hiffx⟩ := hwfa (some x)
  by_cases hi : i < (s.a (some x)).seq.length
  · simp only [ord_setI, dif_pos hi]
    obtain ⟨o0, ho0⟩ : ∃ n, (s.a (some x)).seq.get ⟨i, hi⟩ = some n := by
      cases hon : (s.a (some x)).seq.get ⟨i, hi⟩ with
      | none => exact absurd ((hiffx _).mp (hon ▸ List.get_mem _ _ _)) hsetx.2
      | some n => exact ⟨n, rfl⟩
    rw [ho0]
    have hold_val : (some o0 : V) ∈ (s.a (some x)).values :=
      (hiffx _).mp (ho0 ▸ List.get_mem _ _ _)
    by_cases heq : (some o0 : V) = newv
    · rw [if_pos heq]
      exact ⟨hsym, hwfa, hwfb⟩
    · rw [if_neg heq]
      by_cases hnewmem : newv ∈ (s.a (some x)).values
      · rw [if_pos hnewmem]
        exact ⟨hsym, hwfa, hwfb⟩
      · rw [if_neg hnewmem]
        by_cases hty : validate_object ty newv = false
        · rw [if_pos hty]
          exact ⟨hsym, hwfa, hwfb⟩
        · rw [if_neg hty, if_pos hold_val]
          obtain ⟨n0, hn0⟩ := validate_some hty
          subst hn0
          have hno : n0 ≠ o0 := fun he => heq (by rw [he])
          set s1 := updA s (some x) fun c =>
            { c with values := setAdd (c.values.erase (some o0)) (some n0),
                     seq := c.seq.set i (some n0) } with hs1def
          have hb1 : s1.b = s.b := rfl
          have hnewseq : (some n0 : V) ∉ (s.a (some x)).seq :=
            fun hw => hnewmem ((hiffx _).mp hw)
          obtain ⟨hseqnd1, hseqmem1⟩ :=
            set_nodup_mem (s.a (some x)).seq i hi (some n0) hseqndx hnewseq
          have ha1x_mem : ∀ w, w ∈ (s1.a (some x)).values ↔
              ((w ∈ (s.a (some x)).values ∧ w ≠ some o0) ∨ w = some n0) := by
            intro w
            rw [hs1def]
            simp only [updA_a_same]
            rw [mem_setAdd, hsetx.1.mem_erase_iff]
            tauto
          have ha1mem : ∀ x1 y1 : Nat, memK .ordered (s1.a (some x1)) (some y1) ↔
              (((memK .ordered (s.a (some x1)) (some y1) ∧ ¬(x1 = x ∧ y1 = o0)) ∨
                (x1 = x ∧ y1 = n0))) := by
            intro x1 y1
            by_cases hx1 : some x1 = (some x : V)
            · rw [show x1 = x from Option.some_injective _ hx1] at *
              show (some y1) ∈ (s1.a (some x)).values ↔ _
              rw [ha1x_mem]
              constructor
              · rintro (⟨hm, hne⟩ | he)
                · refine Or.inl ⟨hm, ?_⟩
                  rintro ⟨-, rfl⟩
                  exact hne rfl
                · exact Or.inr ⟨rfl, Option.some_injective _ he⟩
              · rintro (⟨hm, hnc⟩ | ⟨-, rfl⟩)
                · refine Or.inl ⟨hm, ?_⟩
                  intro he
                  exact hnc ⟨rfl, Option.some_injective _ he⟩
                · exact Or.inr rfl
            · rw [show memK .ordered (s1.a (some x1)) (some y1) =
                    memK .ordered (s.a (some x1)) (some y1) from by
                  rw [hs1def, updA_a_other _ _ _ _ hx1]]
              have hx1b : ¬ x1 = x := fun h => hx1 (congrArg some h)
              constructor
              · intro hm
                exact Or.inl ⟨hm, fun hc => hx1b hc.1⟩
              · rintro (⟨hm, -⟩ | ⟨hx, -⟩)
                · exact hm
                · exact absurd hx hx1b
          have hwfa1 : ∀ w, WFK .ordered (s1.a w) := by
            intro w
            by_cases hw : w = (some x : V)
            · subst hw
              refine ⟨⟨?_, ?_⟩, ?_, ?_⟩
              · rw [hs1def]
                simp only [updA_a_same]
                exact nodup_setAdd _ _ (hsetx.1.erase _)
              · rw [ha1x_mem]
                rintro (⟨hm, -⟩ | he)
                · exact hsetx.2 hm
                · exact Option.noConfusion he
              · rw [hs1def]
                simpa only [updA_a_same] using hseqnd1
              · intro w
                rw [show (s1.a (some x)).seq = (s.a (some x)).seq.set i (some n0) from by
                    rw [hs1def]; simp, hseqmem1 w, ha1x_mem w, ho0, hiffx]
            · rw [WFK, hs1def, updA_a_other _ _ _ _ hw]
              exact hwfa w
          obtain ⟨s2, hrun2, ha2, hbother2, hbmem2, hwfb2⟩ :=
            dissocB_spec k2 o0 x s1 (by rw [hb1]; exact (hsym x o0).mp hold_val)
              (hb1 ▸ hwfb)
          have hb2v : ∀ w, w ≠ (some o0 : V) → s2.b w = s.b w := by
            intro w hw
            rw [hbother2 _ hw, hb1]
          obtain ⟨s3, hrun3, hbother3, hbmem3, hamem3, hwfa3, hwfb3⟩ :=
            assocB_spec .ordered k2 n0 x s2 (ha2 ▸ hwfa1) hwfb2
              (by
                intro hk hc
                rw [hb2v _ (by simpa using hno)] at hc
                exact hnewmem ((hsym x n0).mpr hc))
              (by
                intro m hk hval hne
                rw [hb2v _ (by simpa using hno)] at hval
                have hmem2 : memK .ordered (s.a (some m)) (some n0) := by
                  refine (hsym m n0).mpr ?_
                  rw [hk, memK, hval]
                rw [show s2.a = s1.a from ha2]
                refine (ha1mem m n0).mpr ?_
                by_cases hmx : m = x
                · exact Or.inr ⟨hmx, rfl⟩
                · exact Or.inl ⟨hmem2, fun hc => hmx hc.1⟩)
          rw [hrun2, bindR_ok, hrun3, stateOf_ok]
          refine ⟨?_, hwfa3, hwfb3⟩
          intro x1 y1
          rw [hamem3 x1 y1, show s2.a = s1.a from ha2, ha1mem x1 y1]
          by_cases hy1 : y1 = n0
          · subst hy1
            rw [hbmem3 x1]
            by_cases hx1 : x1 = x
            · subst hx1
              refine iff_of_true ⟨Or.inr ⟨rfl, rfl⟩, ?_⟩ (Or.inl rfl)
              rintro ⟨-, hveq, hvne, -⟩
              exact hvne hveq
            · have hbn0 : s2.b (some y1) = s.b (some y1) := hb2v _ (by simpa using hno)
              rw [hbn0]
              constructor
              · rintro ⟨(⟨hm, -⟩ | ⟨hx, -⟩), hnc⟩
                · right
                  refine ⟨?_, (hsym x1 y1).mp hm⟩
                  intro hk
                  subst hk
                  have hveq : (s.b (some y1)).value = some x1 := (hsym x1 y1).mp hm
                  refine hnc ⟨rfl, hveq, ?_, rfl⟩
                  rw [hveq]
                  intro he
                  exact hx1 (Option.some_injective _ he)
                · exact absurd hx hx1
              · rintro (hx | ⟨hk, hm⟩)
                · exact absurd hx hx1
                · refine ⟨Or.inl ⟨(hsym x1 y1).mpr hm, ?_⟩, ?_⟩
                  · rintro ⟨-, hy⟩
                    exact hno hy
                  · rintro ⟨hk2, -, -, -⟩
                    exact hk hk2
          · have hb3y : s3.b (some y1) = s2.b (some y1) :=
              hbother3 _ (fun h => hy1 (Option.some_injective _ h))
            by_cases hyo : y1 = o0
            · subst hyo
              rw [hb3y, hbmem2 x1, hb1]
              by_cases hx1 : x1 = x
              · subst hx1
                refine iff_of_false ?_ ?_
                · rintro ⟨(⟨-, hnc⟩ | ⟨-, hy⟩), -⟩
                  · exact hnc ⟨rfl, rfl⟩
                  · exact hy1 hy
                · rintro ⟨-, hne⟩
                  exact hne rfl
              · constructor
                · rintro ⟨(⟨hm, -⟩ | ⟨hx, -⟩), -⟩
                  · exact ⟨(hsym x1 y1).mp hm, hx1⟩
                  · exact absurd hx hx1
                · rintro ⟨hm, -⟩
                  refine ⟨Or.inl ⟨(hsym x1 y1).mpr hm, fun hc => hx1 hc.1⟩, ?_⟩
                  rintro ⟨-, -, -, hy⟩
                  exact hy1 hy
            · rw [hb3y, hb2v _ (fun h => hyo (Option.some_injective _ h))]
              constructor
              · rintro ⟨(⟨hm, -⟩ | ⟨-, hy⟩), -⟩
                · exact (hsym x1 y1).mp hm
                · exact absurd hy hy1
              · intro hm
                refine ⟨Or.inl ⟨(hsym x1 y1).mpr hm, ?_⟩, ?_⟩
                · rintro ⟨-, hy⟩
                  exact hyo hy
                · rintro ⟨-, -, -, hy⟩
                  exact hy1 hy
  · simpa [ord_setI, dif_neg hi] using ⟨hsym, hwfa, hwfb⟩

/-- Replacing a slice of a duplicate-free list by a duplicate-free list of
values that can only re-enter through the displaced slice yields a
duplicate-free list whose members are the survivors plus the new values. -/
theorem splice_facts (l ys : List V) (i j : Nat) (hnd : l.Nodup) (hys : ys.Nodup)
    (hdisj : ∀ w ∈ ys, w ∈ l → w ∈ pySlice l i j) :
    (pySpliceSet l i j ys).Nodup ∧
    (∀ w, w ∈ pySpliceSet l i j ys ↔
      ((w ∈ l ∧ w ∉ pySlice l i j) ∨ w ∈ ys)) := by
  have hdec := seq_decomp l i j
  set A := l.take (min i l.length) with hA
  set U := pySlice l i j with hU
  set D := l.drop (max (min i l.length) (min j l.length)) with hD
  have hnd2 : ((A ++ U) ++ D).Nodup := by
    rw [show (A ++ U) ++ D = l from hdec]
    exact hnd
  obtain ⟨hndAU, hndD, hdisjAUD⟩ := List.nodup_append.mp hnd2
  obtain ⟨hndA, hndU, hdisjAU⟩ := List.nodup_append.mp hndAU
  have hmem_l : ∀ w, w ∈ l ↔ (w ∈ A ∨ w ∈ U ∨ w ∈ D) := by
    intro w
    conv_lhs => rw [← hdec]
    simp [List.mem_append, or_assoc]
  have hUD : ∀ w, w ∈ U → w ∉ D := fun w hw hd =>
    hdisjAUD (List.mem_append_right A hw) hd
  have hAD : ∀ w, w ∈ A → w ∉ D := fun w hw hd =>
    hdisjAUD (List.mem_append_left U hw) hd
  have hysA : ∀ w, w ∈ ys → w ∉ A := by
    intro w hw hA2
    have hwl : w ∈ l := (hmem_l w).mpr (Or.inl hA2)
    exact hdisjAU hA2 (hdisj w hw hwl)
  have hysD : ∀ w, w ∈ ys → w ∉ D := by
    intro w hw hD2
    have hwl : w ∈ l := (hmem_l w).mpr (Or.inr (Or.inr hD2))
    exact hUD _ (hdisj w hw hwl) hD2
  have hsplice : pySpliceSet l i j ys = (A ++ ys) ++ D := by
    rw [pySpliceSet, ← hA, ← hD, List.append_assoc]
  constructor
  · rw [hsplice]
    refine List.Nodup.append (List.Nodup.append hndA hys ?_) hndD ?_
    · intro w hwA hwys
      exact hysA w hwys hwA
    · intro w hw hwD
      rcases List.mem_append.mp hw with hwA | hwys
      · exact hAD w hwA hwD
      · exact hysD w hwys hwD
  · intro w
    rw [hsplice]
    simp only [List.mem_append]
    constructor
    · rintro ((hwA | hwys) | hwD)
      · exact Or.inl ⟨(hmem_l w).mpr (Or.inl hwA), fun hwU => hdisjAU hwA hwU⟩
      · exact Or.inr hwys
      · exact Or.inl ⟨(hmem_l w).mpr (Or.inr (Or.inr hwD)), fun hwU => hUD w hwU hwD⟩
    · rintro (⟨hwl, hwnU⟩ | hwys)
      · rcases (hmem_l w).mp hwl with hwA | hwU | hwD
        · exact Or.inl (Or.inl hwA)
        · exact absurd hwU hwnU
        · exact Or.inr hwD
      · exact Or.inl (Or.inr hwys)

/-- The per-element loop of slice deletion: for each removed element,
`values.remove` it and `dissociate` it.  Succeeds when every element is a
tracked member associated on the B side, removing exactly those pairs. -/
theorem del_loop (k2 : Kind) (x : Nat) (l : List V) : ∀ s : St,
    l.Nodup →
    (∀ v ∈ l, ∃ v0, v = some v0 ∧ v ∈ (s.a (some x)).values ∧
      memK k2 (s.b v) (some x)) →
    (∀ v, WFK k2 (s.b v)) →
    (s.a (some x)).values.Nodup →
    ∃ s2, forList (fun v s =>
        if v ∈ (s.a (some x)).values then
          dissocB k2 v (some x)
            (updA s (some x) fun c => { c with values := c.values.erase v })
        else .error s) l s = .ok s2 ∧
      (∀ w, w ≠ (some x : V) → s2.a w = s.a w) ∧
      (s2.a (some x)).seq = (s.a (some x)).seq ∧
      (∀ w, w ∈ (s2.a (some x)).values ↔ (w ∈ (s.a (some x)).values ∧ w ∉ l)) ∧
      (s2.a (some x)).values.Nodup ∧
      (∀ y1 : Nat, (some y1 : V) ∉ l → s2.b (some y1) = s.b (some y1)) ∧
      (∀ y1 x1 : Nat, memK k2 (s2.b (some y1)) (some x1) ↔
        (memK k2 (s.b (some y1)) (some x1) ∧ ¬((some y1 : V) ∈ l ∧ x1 = x))) ∧
      (∀ v, WFK k2 (s2.b v)) := by
  induction l with
  | nil =>
    intro s _ _ hwfb hnd
    exact ⟨s, rfl, fun _ _ => rfl, rfl, fun w => by simp, hnd, fun _ _ => rfl,
      fun y1 x1 => by simp, hwfb⟩
  | cons v rest ih =>
    intro s hnd hmem hwfb hvalnd
    obtain ⟨v0, rfl, hvval, hvb⟩ := hmem _ (List.mem_cons_self v rest)
    have hvrest : (some v0 : V) ∉ rest := (List.nodup_cons.mp hnd).1
    set sM := updA s (some x) fun c => { c with values := c.values.erase (some v0) }
      with hsMdef
    obtain ⟨sD, hrunD, haD, hbotherD, hbmemD, hwfbD⟩ :=
      dissocB_spec k2 v0 x sM (by rw [hsMdef]; exact hvb) (by rw [hsMdef]; exact hwfb)
    have haD2 : ∀ w, sD.a w = sM.a w := fun w => by rw [haD]
    obtain ⟨s2, hrun2, haother2, haseq2, havals2, havalnd2, hbother2, hbmem2, hwfb2⟩ :=
      ih sD (List.nodup_cons.mp hnd).2
        (by
          intro w hw
          obtain ⟨w0, rfl, hw1, hw2⟩ := hmem _ (List.mem_cons_of_mem _ hw)
          have hwv : (some w0 : V) ≠ some v0 := fun he => hvrest (he ▸ hw)
          refine ⟨w0, rfl, ?_, ?_⟩
          · rw [haD2, hsMdef]
            simp only [updA_a_same]
            rw [hvalnd.mem_erase_iff]
            exact ⟨hwv, hw1⟩
          · rwa [hbotherD _ hwv, hsMdef])
        hwfbD
        (by
          rw [haD2, hsMdef]
          simp only [updA_a_same]
          exact hvalnd.erase _)
    refine ⟨s2, ?_, ?_, ?_, ?_, havalnd2, ?_, ?_, hwfb2⟩
    · rw [forList, if_pos hvval, ← hsMdef, hrunD, bindR_ok]
      exact hrun2
    · intro w hw
      rw [haother2 _ hw, haD2, hsMdef, updA_a_other _ _ _ _ hw]
    · rw [haseq2, haD2, hsMdef]
      simp
    · intro w
      rw [havals2 w, haD2, hsMdef]
      simp only [updA_a_same]
      rw [hvalnd.mem_erase_iff]
      simp only [List.mem_cons]
      tauto
    · intro y1 hy1
      rw [hbother2 _ (fun h => hy1 (List.mem_cons_of_mem _ h)),
        hbotherD _ (fun h => hy1 (h ▸ List.mem_cons_self _ _))]
      rfl
    · intro y1 x1
      rw [hbmem2 y1 x1]
      by_cases hy1 : y1 = v0
      · subst hy1
        rw [hbmemD x1, hsMdef]
        constructor
        · rintro ⟨⟨hm, hne⟩, -⟩
          exact ⟨hm, by simp [hne]⟩
        · rintro ⟨hm, hnc⟩
          have hne : x1 ≠ x := fun he => hnc ⟨List.mem_cons_self _ _, he⟩
          exact ⟨⟨hm, hne⟩, fun hc => hvrest hc.1⟩
      · have hby : sD.b (some y1) = s.b (some y1) := by
          rw [hbotherD _ (fun h => hy1 (Option.some_injective _ h))]
          rfl
        rw [hby]
        constructor
        · rintro ⟨hm, hnc⟩
          refine ⟨hm, ?_⟩
          rintro ⟨hin, hx⟩
          rcases List.mem_cons.mp hin with he | hin
          · exact hy1 (Option.some_injective _ he)
          · exact hnc ⟨hin, hx⟩
        · rintro ⟨hm, hnc⟩
          exact ⟨hm, fun hc => hnc ⟨List.mem_cons_of_mem _ hc.1, hc.2⟩⟩

/-- `OrderedAssociation.__delitem__` with a slice preserves the engine
invariant. -/
theorem ord_delS_inv (k2 : Kind) (x i j : Nat) (s : St)
    (h : Inv .ordered k2 s) : Inv .ordered k2 (stateOf (ord_delS k2 x i j s)) := by
  obtain ⟨hsym, hwfa, hwfb⟩ := h
  obtain ⟨hsetx, hseqndx, hiffx⟩ := hwfa (some x)
  have hslice_nd : (pySlice (s.a (some x)).seq i j).Nodup := pySlice_nodup _ i j hseqndx
  set s1 := updA s (some x) fun c => { c with seq := pySpliceSet c.seq i j [] }
    with hs1def
  have hb1 : s1.b = s.b := rfl
  have hs1vals : (s1.a (some x)).values = (s.a (some x)).values := by rw [hs1def]; simp
  obtain ⟨s2, hrun2, haother2, haseq2, havals2, havalnd2, hbother2, hbmem2, hwfb2⟩ :=
    del_loop k2 x (pySlice (s.a (some x)).seq i j) s1 hslice_nd
      (by
        intro v hv
        have hvseq : v ∈ (s.a (some x)).seq := pySlice_subset _ i j hv
        have hvval : v ∈ (s.a (some x)).values := (hiffx v).mp hvseq
        obtain ⟨v0, rfl⟩ : ∃ n, v = some n := by
          cases hvn : v with
          | none => exact absurd (hvn ▸ hvval) hsetx.2
          | some n => exact ⟨n, rfl⟩
        exact ⟨v0, rfl, hs1vals ▸ hvval, by rw [hb1]; exact (hsym x v0).mp hvval⟩)
      (hb1 ▸ hwfb)
      (hs1vals ▸ hsetx.1)
  have hsf := splice_facts (s.a (some x)).seq [] i j hseqndx List.nodup_nil
    (fun w hw => absurd hw (List.not_mem_nil w))
  simp only [ord_delS]
  rw [← hs1def, hrun2, stateOf_ok]
  refine ⟨?_, ?_, hwfb2⟩
  · intro x1 y1
    by_cases hx1 : some x1 = (some x : V)
    · rw [show x1 = x from Option.some_injective _ hx1] at *
      rw [show memK .ordered (s2.a (some x)) (some y1) ↔
            ((some y1 : V) ∈ (s.a (some x)).values ∧
              (some y1 : V) ∉ pySlice (s.a (some x)).seq i j) from by
          rw [memK]
          rw [havals2, hs1vals],
        hbmem2 y1 x,
        show memK k2 (s1.b (some y1)) (some x) ↔
          memK .ordered (s.a (some x)) (some y1) from by
            rw [hb1]; exact (hsym x y1).symm]
      constructor
      · rintro ⟨hm, hnu⟩
        exact ⟨hm, fun hc => hnu hc.1⟩
      · rintro ⟨hm, hnc⟩
        exact ⟨hm, fun hu => hnc ⟨hu, rfl⟩⟩
    · rw [show memK .ordered (s2.a (some x1)) (some y1) =
            memK .ordered (s.a (some x1)) (some y1) from by
          rw [haother2 _ hx1, hs1def, updA_a_other _ _ _ _ hx1],
        hbmem2 y1 x1,
        show memK k2 (s1.b (some y1)) (some x1) ↔
          memK .ordered (s.a (some x1)) (some y1) from by
            rw [hb1]; exact (hsym x1 y1).symm]
      have hx1b : x1 ≠ x := fun h => hx1 (congrArg some h)
      constructor
      · intro hm
        exact ⟨hm, fun hc => hx1b hc.2⟩
      · exact fun hc => hc.1
  · intro w
    by_cases hw : w = (some x : V)
    · subst hw
      refine ⟨⟨havalnd2, ?_⟩, ?_, ?_⟩
      · rw [havals2, hs1vals]
        exact fun hc => hsetx.2 hc.1
      · rw [haseq2, hs1def]
        simpa using hsf.1
      · intro w
        rw [haseq2, havals2, hs1vals,
          show (s1.a (some x)).seq = pySpliceSet (s.a (some x)).seq i j [] from by
            rw [hs1def]; simp,
          (hsf.2 w), hiffx]
        simp
    · rw [WFK, haother2 _ hw, hs1def, updA_a_other _ _ _ _ hw]
      exact hwfa w

/-- The association loop of slice assignment: associating each net-added
element with `x` on the B side.  Succeeds and adds exactly the pairs
`(v, x)` for `v` in the list, except that a singleton peer may displace a
previous occupant, whose A-side association to that peer is removed. -/
theorem assoc_loop (k1 k2 : Kind) (x : Nat) (l : List V) : ∀ s : St,
    l.Nodup →
    (∀ v ∈ l, ∃ v0, v = some v0) →
    (∀ v ∈ l, k2 = .ordered → ¬ memK k2 (s.b v) (some x)) →
    (∀ v ∈ l, ∀ m : Nat, k2 = .one → (s.b v).value = some m →
      (s.b v).value ≠ some x → memK k1 (s.a (some m)) v) →
    (∀ w, WFK k1 (s.a w)) → (∀ w, WFK k2 (s.b w)) →
    ∃ s2, forList (fun v s => assocB k1 k2 v (some x) s) l s = .ok s2 ∧
      (∀ y1 : Nat, (some y1 : V) ∉ l → s2.b (some y1) = s.b (some y1)) ∧
      (∀ y1 x1 : Nat, memK k2 (s2.b (some y1)) (some x1) ↔
        (((some y1 : V) ∈ l ∧ x1 = x) ∨
         ((k2 ≠ .one ∨ (some y1 : V) ∉ l) ∧ memK k2 (s.b (some y1)) (some x1)))) ∧
      (∀ x1 y1 : Nat, memK k1 (s2.a (some x1)) (some y1) ↔
        (memK k1 (s.a (some x1)) (some y1) ∧
          ¬(k2 = .one ∧ (some y1 : V) ∈ l ∧ (s.b (some y1)).value = some x1 ∧
            (s.b (some y1)).value ≠ some x))) ∧
      (∀ w, WFK k1 (s2.a w)) ∧ (∀ w, WFK k2 (s2.b w)) := by
  induction l with
  | nil =>
    intro s _ _ _ _ hwfa hwfb
    refine ⟨s, rfl, fun _ _ => rfl, ?_, ?_, hwfa, hwfb⟩
    · intro y1 x1
      simp
    · intro x1 y1
      simp
  | cons v rest ih =>
    intro s hnd hsome hord hcasc hwfa hwfb
    obtain ⟨v0, rfl⟩ := hsome _ (List.mem_cons_self v rest)
    have hvrest : (some v0 : V) ∉ rest := (List.nodup_cons.mp hnd).1
    obtain ⟨sB, hrunB, hbotherB, hbmemB, hamemB, hwfaB, hwfbB⟩ :=
      assocB_spec k1 k2 v0 x s hwfa hwfb
        (hord _ (List.mem_cons_self _ _))
        (hcasc _ (List.mem_cons_self _ _))
    obtain ⟨s2, hrun2, hbother2, hbmem2, hamem2, hwfa2, hwfb2⟩ :=
      ih sB (List.nodup_cons.mp hnd).2
        (fun w hw => hsome _ (List.mem_cons_of_mem _ hw))
        (by
          intro w hw hk
          obtain ⟨w0, rfl⟩ := hsome _ (List.mem_cons_of_mem _ hw)
          rw [hbotherB _ (fun he => hvrest (he ▸ hw))]
          exact hord _ (List.mem_cons_of_mem _ hw) hk)
        (by
          intro w hw m hk hval hne
          obtain ⟨w0, rfl⟩ := hsome _ (List.mem_cons_of_mem _ hw)
          have hwv : (some w0 : V) ≠ some v0 := fun he => hvrest (he ▸ hw)
          rw [hbotherB _ hwv] at hval hne
          have hbase := hcasc _ (List.mem_cons_of_mem _ hw) m hk hval hne
          rw [hamemB m w0]
          refine ⟨hbase, ?_⟩
          rintro ⟨-, -, -, hw0⟩
          exact hwv (congrArg some hw0))
        hwfaB hwfbB
    refine ⟨s2, ?_, ?_, ?_, ?_, hwfa2, hwfb2⟩
    · rw [forList, hrunB, bindR_ok]
      exact hrun2
    · intro y1 hy1
      rw [hbother2 _ (fun h => hy1 (List.mem_cons_of_mem _ h)),
        hbotherB _ (fun h => hy1 (h ▸ List.mem_cons_self _ _))]
    · intro y1 x1
      rw [hbmem2 y1 x1]
      by_cases hy1 : y1 = v0
      · subst hy1
        have hnin : (some y1 : V) ∉ rest := hvrest
        rw [hbmemB x1]
        constructor
        · rintro (⟨hin, -⟩ | ⟨-, (hx | ⟨hk, hm⟩)⟩)
          · exact absurd hin hnin
          · exact Or.inl ⟨List.mem_cons_self _ _, hx⟩
          · exact Or.inr ⟨Or.inl hk, hm⟩
        · rintro (⟨-, hx⟩ | ⟨hk, hm⟩)
          · exact Or.inr ⟨Or.inr hnin, Or.inl hx⟩
          · rcases hk with hk | hk
            · exact Or.inr ⟨Or.inr hnin, Or.inr ⟨hk, hm⟩⟩
            · exact absurd (List.mem_cons_self _ _) hk
      · have hbeq : sB.b (some y1) = s.b (some y1) :=
          hbotherB _ (fun h => hy1 (Option.some_injective _ h))
        rw [hbeq]
        constructor
        · rintro (⟨hin, hx⟩ | ⟨hk, hm⟩)
          · exact Or.inl ⟨List.mem_cons_of_mem _ hin, hx⟩
          · refine Or.inr ⟨?_, hm⟩
            rcases hk with hk | hk
            · exact Or.inl hk
            · exact Or.inr (fun hc => hk (by
                rcases List.mem_cons.mp hc with he | hin
                · exact absurd (Option.some_injective _ he) hy1
                · exact hin))
        · rintro (⟨hin, hx⟩ | ⟨hk, hm⟩)
          · rcases List.mem_cons.mp hin with he | hin
            · exact absurd (Option.some_injective _ he) hy1
            · exact Or.inl ⟨hin, hx⟩
          · refine Or.inr ⟨?_, hm⟩
            rcases hk with hk | hk
            · exact Or.inl hk
            · exact Or.inr (fun hc => hk (List.mem_cons_of_mem _ hc))
    · intro x1 y1
      rw [hamem2 x1 y1, hamemB x1 y1]
      by_cases hy1 : y1 = v0
      · subst hy1
        have hnin : (some y1 : V) ∉ rest := hvrest
        constructor
        · rintro ⟨⟨hm, hncv⟩, -⟩
          refine ⟨hm, ?_⟩
          rintro ⟨hk, -, hval, hne⟩
          exact hncv ⟨hk, hval, hne, rfl⟩
        · rintro ⟨hm, hnc⟩
          refine ⟨⟨hm, ?_⟩, ?_⟩
          · rintro ⟨hk, hval, hne, -⟩
            exact hnc ⟨hk, List.mem_cons_self _ _, hval, hne⟩
          · rintro ⟨-, hin, -, -⟩
            exact hnin hin
      · have hbeq : sB.b (some y1) = s.b (some y1) :=
          hbotherB _ (fun h => hy1 (Option.some_injective _ h))
        rw [hbeq]
        constructor
        · rintro ⟨⟨hm, -⟩, hnc⟩
          refine ⟨hm, ?_⟩
          rintro ⟨hk, hin, hval, hne⟩
          rcases List.mem_cons.mp hin with he | hin
          · exact hy1 (Option.some_injective _ he)
          · exact hnc ⟨hk, hin, hval, hne⟩
        · rintro ⟨hm, hnc⟩
          refine ⟨⟨hm, ?_⟩, ?_⟩
          · rintro ⟨-, -, -, hy⟩
            exact hy1 hy
          · rintro ⟨hk, hin, hval, hne⟩
            exact hnc ⟨hk, List.mem_cons_of_mem _ hin, hval, hne⟩

/-- A list whose deduplication has the same length has no duplicates. -/
theorem nodup_of_dedup_length (ys : List V) (h : ys.dedup.length = ys.length) :
    ys.Nodup := by
  have he := List.Sublist.eq_of_length (List.dedup_sublist ys) h
  rw [← he]
  exact List.nodup_dedup ys

/-- `OrderedAssociation.__setitem__` with a slice preserves the engine
invariant. -/
theorem ord_setS_inv (ty : Nat → Bool) (k2 : Kind) (x i j : Nat) (ys : List V) (s : St)
    (h : Inv .ordered k2 s) : Inv .ordered k2 (stateOf (ord_setS ty k2 x i j ys s)) := by
  obtain ⟨hsym, hwfa, hwfb⟩ := h
  obtain ⟨hsetx, hseqndx, hiffx⟩ := hwfa (some x)
  by_cases hdup : ys.dedup.length ≠ ys.length
  · simpa [ord_setS, if_pos hdup] using ⟨hsym, hwfa, hwfb⟩
  · simp only [ord_setS, if_neg hdup]
    set removed := pySlice (s.a (some x)).seq i j with hremoved
    set nnr := ys.dedup.filter (fun v => decide (v ∉ removed)) with hnnr
    set rnn := removed.filter (fun v => decide (v ∉ ys.dedup)) with hrnn
    by_cases hguard : (s.a (some x)).values.any (fun v => decide (v ∈ nnr)) = true
    · rw [if_pos hguard]
      exact ⟨hsym, hwfa, hwfb⟩
    · rw [if_neg hguard]
      have hnotin : ∀ w ∈ (s.a (some x)).values, w ∉ nnr := by
        intro w hw hwn
        refine hguard ?_
        rw [List.any_eq_true]
        exact ⟨w, hw, by simpa using hwn⟩
      by_cases hval : ∀ v ∈ ys, validate_object ty v = true
      · simp only [valloop_ok ty ys s hval, bindR_ok]
        have hysnd : ys.Nodup := nodup_of_dedup_length ys (not_ne_iff.mp hdup)
        have hremnd : removed.Nodup := hremoved ▸ pySlice_nodup _ i j hseqndx
        have hnnrnd : nnr.Nodup := hnnr ▸ (List.nodup_dedup ys).filter _
        have hrnnnd : rnn.Nodup := hrnn ▸ hremnd.filter _
        have hnnr_mem : ∀ w, w ∈ nnr ↔ (w ∈ ys ∧ w ∉ removed) := by
          intro w
          rw [hnnr, List.mem_filter]
          simp [List.mem_dedup]
        have hrnn_mem : ∀ w, w ∈ rnn ↔ (w ∈ removed ∧ w ∉ ys) := by
          intro w
          rw [hrnn, List.mem_filter]
          simp [List.mem_dedup]
        have hrem_sub : ∀ w, w ∈ removed → w ∈ (s.a (some x)).seq :=
          fun w hw => pySlice_subset _ i j (hremoved ▸ hw)
        have hsomeys : ∀ v ∈ ys, ∃ v0, v = some v0 := by
          intro v hv
          cases hvn : v with
          | none =>
            rw [hvn] at hv
            exact absurd (hval none hv) (by simp [validate_object])
          | some n => exact ⟨n, rfl⟩
        have hdisj_sp : ∀ w ∈ ys, w ∈ (s.a (some x)).seq → w ∈ pySlice (s.a (some x)).seq i j := by
          intro w hw hws
          by_cases hwr : w ∈ removed
          · exact hremoved ▸ hwr
          · exact absurd ((hnnr_mem w).mpr ⟨hw, hwr⟩) (hnotin w ((hiffx w).mp hws))
        obtain ⟨hspnd, hspmem⟩ := splice_facts (s.a (some x)).seq ys i j hseqndx hysnd hdisj_sp
        set s1 := updA s (some x) fun c =>
          { c with seq := pySpliceSet c.seq i j ys,
                   values := nnr.foldl setAdd
                     (c.values.filter (fun v => decide (v ∉ rnn))) } with hs1def
        have hs1b : s1.b = s.b := rfl
        have hs1vals : ∀ w, w ∈ (s1.a (some x)).values ↔
            ((w ∈ (s.a (some x)).values ∧ w ∉ rnn) ∨ w ∈ nnr) := by
          intro w
          rw [hs1def]
          simp only [updA_a_same]
          rw [mem_foldl_setAdd, List.mem_filter]
          simp [and_comm, or_comm]
        have hs1seq : (s1.a (some x)).seq = pySpliceSet (s.a (some x)).seq i j ys := by
          rw [hs1def]; simp
        have hs1aother : ∀ w, w ≠ (some x : V) → s1.a w = s.a w := by
          intro w hw
          rw [hs1def, updA_a_other _ _ _ _ hw]
        have hnnr_some : ∀ v ∈ nnr, ∃ v0, v = some v0 :=
          fun v hv => hsomeys v ((hnnr_mem v).mp hv).1
        have hrnn_val : ∀ v ∈ rnn, v ∈ (s.a (some x)).values := by
          intro v hv
          exact (hiffx v).mp (hrem_sub v ((hrnn_mem v).mp hv).1)
        have hrnn_some : ∀ v ∈ rnn, ∃ v0, v = some v0 := by
          intro v hv
          cases hvn : v with
          | none => exact absurd (hvn ▸ hrnn_val v hv) hsetx.2
          | some n => exact ⟨n, rfl⟩
        have hnnr_notval : ∀ v ∈ nnr, v ∉ (s.a (some x)).values :=
          fun v hv hvval => hnotin v hvval hv
        have hwfa1 : ∀ w, WFK .ordered (s1.a w) := by
          intro w
          by_cases hw : w = (some x : V)
          · subst hw
            refine ⟨⟨?_, ?_⟩, ?_, ?_⟩
            · rw [hs1def]
              simp only [updA_a_same]
              exact nodup_foldl_setAdd _ _ (hsetx.1.filter _)
            · rw [hs1vals]
              rintro (⟨hm, -⟩ | hm)
              · exact hsetx.2 hm
              · rcases hnnr_some _ hm with ⟨v0, he⟩
                exact Option.noConfusion he
            · rw [hs1seq]
              exact hspnd
            · intro w
              rw [hs1seq, hspmem w, hs1vals w, ← hremoved, hrnn_mem, ← hiffx]
              have hra : w ∈ removed → w ∈ (s.a (some x)).seq := hrem_sub w
              rw [hnnr_mem]
              constructor
              · rintro (⟨hw1, hw2⟩ | hwys)
                · exact Or.inl ⟨hw1, fun hc => hw2 hc.1⟩
                · by_cases hwr : w ∈ removed
                  · exact Or.inl ⟨hra hwr, fun hc => hc.2 hwys⟩
                  · exact Or.inr ⟨hwys, hwr⟩
              · rintro (⟨hw1, hw2⟩ | ⟨hwys, hwr⟩)
                · by_cases hwr : w ∈ removed
                  · by_cases hwy : w ∈ ys
                    · exact Or.inr hwy
                    · exact absurd ⟨hwr, hwy⟩ hw2
                  · exact Or.inl ⟨hw1, hwr⟩
                · exact Or.inr hwys
          · rw [WFK, hs1aother _ hw]
            exact hwfa w
        obtain ⟨s2, hrun2, ha2, hbother2, hbmem2, hwfb2⟩ :=
          clear_loop k2 x rnn s1 hrnnnd
            (by
              intro v hv
              obtain ⟨v0, rfl⟩ := hrnn_some v hv
              refine ⟨v0, rfl, ?_⟩
              rw [hs1b]
              exact (hsym x v0).mp (hrnn_val _ hv))
            (hs1b ▸ hwfb)
        have ha2v : s2.a = s1.a := ha2
        have hb2other : ∀ y1 : Nat, (some y1 : V) ∉ rnn →
            s2.b (some y1) = s.b (some y1) := by
          intro y1 hy
          rw [hbother2 _ hy, hs1b]
        have hb2mem : ∀ y1 x1 : Nat, memK k2 (s2.b (some y1)) (some x1) ↔
            (memK k2 (s.b (some y1)) (some x1) ∧ ¬((some y1 : V) ∈ rnn ∧ x1 = x)) := by
          intro y1 x1
          rw [hbmem2 y1 x1, hs1b]
        obtain ⟨s3, hrun3, hbother3, hbmem3, hamem3, hwfa3, hwfb3⟩ :=
          assoc_loop .ordered k2 x nnr s2 hnnrnd hnnr_some
            (by
              intro v hv hk
              obtain ⟨v0, rfl⟩ := hnnr_some v hv
              rw [hb2mem v0 x]
              rintro ⟨hm, -⟩
              exact hnnr_notval _ hv ((hsym x v0).mpr hm))
            (by
              intro v hv m hk hvalm hne
              obtain ⟨v0, rfl⟩ := hnnr_some v hv
              have hvnr : (some v0 : V) ∉ rnn := by
                rw [hrnn_mem]
                rintro ⟨-, hnys⟩
                exact hnys ((hnnr_mem _).mp hv).1
              rw [hb2other v0 hvnr] at hvalm hne
              have hmm : memK .ordered (s.a (some m)) (some v0) := by
                refine (hsym m v0).mpr ?_
                rw [hk, memK, hvalm]
              rw [ha2v]
              by_cases hmx : some m = (some x : V)
              · rw [hmx]
                show (some v0 : V) ∈ (s1.a (some x)).values
                rw [hs1vals]
                exact Or.inr hv
              · show (some v0 : V) ∈ (s1.a (some m)).values
                rw [hs1aother _ hmx]
                exact hmm)
            (ha2v ▸ hwfa1) hwfb2
        rw [hrun2, bindR_ok, hrun3, stateOf_ok]
        refine ⟨?_, hwfa3, hwfb3⟩
        intro x1 y1
        rw [hamem3 x1 y1, hbmem3 y1 x1]
        by_cases hx1 : x1 = x
        · subst hx1
          have haS : memK .ordered (s2.a (some x1)) (some y1) ↔
              (((some y1 : V) ∈ (s.a (some x1)).values ∧ (some y1 : V) ∉ rnn) ∨
                (some y1 : V) ∈ nnr) := by
            rw [ha2v]
            exact hs1vals _
          rw [haS, hb2mem y1 x1]
          constructor
          · rintro ⟨(⟨hm, hnr⟩ | hN), -⟩
            · by_cases hN : (some y1 : V) ∈ nnr
              · exact Or.inl ⟨hN, rfl⟩
              · refine Or.inr ⟨Or.inr hN, (hsym x1 y1).mp hm, ?_⟩
                rintro ⟨hr, -⟩
                exact hnr hr
            · exact Or.inl ⟨hN, rfl⟩
          · rintro (⟨hN, -⟩ | ⟨hk, hm, hnr⟩)
            · refine ⟨Or.inr hN, ?_⟩
              rintro ⟨-, -, hveq, hvne⟩
              exact hvne hveq
            · refine ⟨Or.inl ⟨(hsym x1 y1).mpr hm, fun hr => hnr ⟨hr, rfl⟩⟩, ?_⟩
              rintro ⟨-, -, hveq, hvne⟩
              exact hvne hveq
        · have haS : memK .ordered (s2.a (some x1)) (some y1) ↔
              memK .ordered (s.a (some x1)) (some y1) := by
            rw [ha2v,
              show s1.a (some x1) = s.a (some x1) from
                hs1aother _ (fun h => hx1 (Option.some_injective _ h))]
          rw [haS, hb2mem y1 x1]
          by_cases hN : (some y1 : V) ∈ nnr
          · have hvnr : (some y1 : V) ∉ rnn := by
              rw [hrnn_mem]
              rintro ⟨-, hnys⟩
              exact hnys ((hnnr_mem _).mp hN).1
            have hb2y : s2.b (some y1) = s.b (some y1) := hb2other y1 hvnr
            constructor
            · rintro ⟨hm, hnc⟩
              right
              refine ⟨Or.inl ?_, (hsym x1 y1).mp hm, fun hc => hx1 hc.2⟩
              intro hk
              subst hk
              have hveq : (s.b (some y1)).value = some x1 := (hsym x1 y1).mp hm
              refine absurd (hnc ⟨rfl, hN, ?_, ?_⟩) not_false
              · rw [hb2y]; exact hveq
              · rw [hb2y, hveq]
                intro he
                exact hx1 (Option.some_injective _ he)
            · rintro (⟨-, hx⟩ | ⟨hk, hm, -⟩)
              · exact absurd hx hx1
              · refine ⟨(hsym x1 y1).mpr hm, ?_⟩
                rintro ⟨hk2, -, -, -⟩
                rcases hk with hk | hk
                · exact hk hk2
                · exact hk hN
          · constructor
            · rintro ⟨hm, -⟩
              exact Or.inr ⟨Or.inr hN, (hsym x1 y1).mp hm, fun hc => hx1 hc.2⟩
            · rintro (⟨hN2, -⟩ | ⟨-, hm, -⟩)
              · exact absurd hN2 hN
              · refine ⟨(hsym x1 y1).mpr hm, ?_⟩
                rintro ⟨-, hN2, -, -⟩
                exact hN hN2
      · rw [valloop_err ty ys s hval, bindR_error, stateOf_error]
        exact ⟨hsym, hwfa, hwfb⟩

/-- The `pop`-until-empty loop of `MutableSequence.clear` preserves the
engine invariant. -/
theorem ord_clear_go_inv (k2 : Kind) (x : Nat) : ∀ (n : Nat) (s : St),
    Inv .ordered k2 s → Inv .ordered k2 (stateOf (ord_clear_go k2 x n s)) := by
  intro n
  induction n with
  | zero => exact fun s hs => hs
  | succ n ih =>
    intro s hs
    rw [ord_clear_go]
    by_cases hemp : (s.a (some x)).seq = []
    · rw [if_pos hemp]
      exact hs
    · rw [if_neg hemp]
      have h1 := ord_delI_inv k2 x ((s.a (some x)).seq.length - 1) s hs
      cases hp : ord_delI k2 x ((s.a (some x)).seq.length - 1) s with
      | error e =>
        rw [ord_pop_last, hp, bindR_error]
        rw [hp] at h1
        exact h1
      | ok s1 =>
        rw [ord_pop_last, hp, bindR_ok]
        rw [hp] at h1
        exact ih s1 h1

/-- `MutableSequence.clear` preserves the engine invariant. -/
theorem ord_clear_inv (k2 : Kind) (x : Nat) (s : St)
    (h : Inv .ordered k2 s) : Inv .ordered k2 (stateOf (ord_clear k2 x s)) :=
  ord_clear_go_inv k2 x _ s h

/-- `MutableSequence.append` preserves the engine invariant. -/
theorem ord_append_inv (ty : Nat → Bool) (k2 : Kind) (x : Nat) (v : V) (s : St)
    (h : Inv .ordered k2 s) : Inv .ordered k2 (stateOf (ord_append ty k2 x v s)) :=
  ord_insert_inv ty k2 x _ v s h

/-- `OrderedAssociation.assign` preserves the engine invariant. -/
theorem ord_assign_inv (ty : Nat → Bool) (k2 : Kind) (x : Nat) (ys : List V) (s : St)
    (h : Inv .ordered k2 s) : Inv .ordered k2 (stateOf (ord_assign ty k2 x ys s)) := by
  have h1 := ord_clear_inv k2 x s h
  rw [ord_assign]
  cases hc : ord_clear k2 x s with
  | error e =>
    rw [bindR_error]
    rw [hc] at h1
    exact h1
  | ok s1 =>
    rw [bindR_ok]
    rw [hc] at h1
    exact forList_inv _ ys (fun v s _ hs => ord_append_inv ty k2 x v s hs) s1 h1

/-- Every mutating operation run on the A side preserves the engine
invariant (also when it raises). -/
theorem runA_inv (ty : Nat → Bool) (k2 : Kind) (op : AOp) (s : St)
    (h : Inv op.kind k2 s) : Inv op.kind k2 (stateOf (runA ty k2 op s)) := by
  cases op with
  | sset x newv => exact singleton_set_inv ty k2 x newv s h
  | sadd x v => exact set_add_inv ty k2 x v s h
  | sdiscard x v => exact set_discard_inv k2 x v s h
  | sclear x => exact set_clear_inv k2 x s h
  | sassign x vs => exact set_assign_inv ty k2 x vs s h
  | oinsert x i v => exact ord_insert_inv ty k2 x i v s h
  | osetI x i v => exact ord_setI_inv ty k2 x i v s h
  | osetS x i j vs => exact ord_setS_inv ty k2 x i j vs s h
  | odelI x i => exact ord_delI_inv k2 x i s h
  | odelS x i j => exact ord_delS_inv k2 x i j s h
  | oassign x vs => exact ord_assign_inv ty k2 x vs s h

theorem Call.swap_swap (c : Call) : c.swap.swap = c := by
  cases c <;> rfl

theorem St.swap_swap_eq (s : St) : s.swap.swap = s := by
  cases s with
  | mk a b tr =>
    simp [St.swap, List.map_map, Function.comp_def, Call.swap_swap]

@[simp] theorem swap_a (s : St) : s.swap.a = s.b := rfl

@[simp] theorem swap_b (s : St) : s.swap.b = s.a := rfl

theorem stateOf_swap (r : Res) : stateOf (Res.swap r) = (stateOf r).swap := by
  cases r <;> rfl

/-- The engine invariant is symmetric in the two sides. -/
theorem Inv_swap {k1 k2 : Kind} {s : St} (h : Inv k1 k2 s) : Inv k2 k1 s.swap := by
  obtain ⟨hsym, hwfa, hwfb⟩ := h
  exact ⟨fun x y => (hsym y x).symm, hwfb, hwfa⟩

/-- Every mutating operation run on the B side preserves the engine
invariant. -/
theorem runB_inv (ty : Nat → Bool) (k1 k2 : Kind) (op : AOp) (s : St)
    (hk : op.kind = k2) (h : Inv k1 k2 s) :
    Inv k1 k2 (stateOf (runB ty k1 op s)) := by
  rw [runB, stateOf_swap]
  have h1 : Inv op.kind k1 s.swap := hk ▸ Inv_swap h
  have h2 := runA_inv ty k1 op s.swap h1
  rw [hk] at h2
  exact Inv_swap h2

/-- Every step of the engine preserves the invariant. -/
theorem Step_inv {tyA tyB : Nat → Bool} {k1 k2 : Kind} {s s' : St}
    (hstep : Step tyA tyB k1 k2 s s') (h : Inv k1 k2 s) : Inv k1 k2 s' := by
  cases hstep with
  | stepA op s hk =>
    have := runA_inv tyB k2 op s (hk ▸ h)
    rwa [hk] at this
  | stepB op s hk => exact runB_inv tyA k1 k2 op s hk h

/-- The initial state satisfies the invariant. -/
theorem Inv_init (k1 k2 : Kind) : Inv k1 k2 St.init := by
  refine ⟨?_, ?_, ?_⟩
  · intro x y
    cases k1 <;> cases k2 <;> simp [memK, St.init, Cont.empty]
  · intro v
    cases k1 <;> simp [WFK, WFset, St.init, Cont.empty]
  · intro v
    cases k2 <;> simp [WFK, WFset, St.init, Cont.empty]

/-- Every reachable state of the engine satisfies the invariant. -/
theorem Reach_inv {tyA tyB : Nat → Bool} {k1 k2 : Kind} {s : St}
    (h : Reach tyA tyB k1 k2 s) : Inv k1 k2 s := by
  induction h with
  | init => exact Inv_init k1 k2
  | step _ hstep ih => exact Step_inv hstep ih

/-!
## Claim theorems for the association engine
-/

/-- C1: Referential symmetry.  In every state reachable from the initial
state by mutating operations of the association engine on either side
(Singleton set, Set add/discard/clear/assign, Ordered
insert/delete/setitem/assign, whether they return or raise), for all
objects `x` (A side) and `y` (B side), `y` is a member of `x`'s container
if and only if `x` is a member of `y`'s peer container. -/
theorem C1_referential_symmetry (tyA tyB : Nat → Bool) (k1 k2 : Kind) (s : St)
    (h : Reach tyA tyB k1 k2 s) : Sym k1 k2 s :=
  (Reach_inv h).1

theorem C1_referential_symmetry_witness :
    Reach (fun _ => true) (fun _ => true) Kind.many Kind.many
      (stateOf (runA (fun _ => true) Kind.many (AOp.sadd 0 (some 1)) St.init)) ∧
    Sym Kind.many Kind.many
      (stateOf (runA (fun _ => true) Kind.many (AOp.sadd 0 (some 1)) St.init)) := by
  have hr : Reach (fun _ => true) (fun _ => true) Kind.many Kind.many
      (stateOf (runA (fun _ => true) Kind.many (AOp.sadd 0 (some 1)) St.init)) :=
    Reach.step Reach.init (Step.stepA (AOp.sadd 0 (some 1)) St.init rfl)
  exact ⟨hr, C1_referential_symmetry _ _ _ _ _ hr⟩

/-- C2: Ordered-container uniqueness.  In every state reachable with an
ordered A side, every A-side container's backing sequence `seq` has no
duplicates, holds exactly the elements of the tracked membership set
`values`, and contains no `None` entry; and inserting a value already
present in a container raises a duplicate error that leaves the whole
state (hence the container) unchanged. -/
theorem C2_ordered_uniqueness (tyA tyB : Nat → Bool) (k2 : Kind) (s : St)
    (h : Reach tyA tyB Kind.ordered k2 s) :
    (∀ w : V, (s.a w).seq.Nodup ∧ (∀ u, u ∈ (s.a w).seq ↔ u ∈ (s.a w).values) ∧
      (none : V) ∉ (s.a w).seq) ∧
    (∀ (ty : Nat → Bool) (x i : Nat) (v : V), v ∈ (s.a (some x)).values →
      ord_insert ty k2 x i v s = Except.error s) := by
  obtain ⟨-, hwfa, -⟩ := Reach_inv h
  constructor
  · intro w
    obtain ⟨⟨hnd, hnone⟩, hsnd, hiff⟩ := hwfa w
    exact ⟨hsnd, hiff, fun hc => hnone ((hiff none).mp hc)⟩
  · intro ty x i v hv
    rw [ord_insert, if_pos hv]

theorem C2_ordered_uniqueness_witness :
    Reach (fun _ => true) (fun _ => true) Kind.ordered Kind.many
      (stateOf (runA (fun _ => true) Kind.many (AOp.oinsert 0 0 (some 5)) St.init)) ∧
    ((∀ w : V,
        ((stateOf (runA (fun _ => true) Kind.many (AOp.oinsert 0 0 (some 5))
            St.init)).a w).seq.Nodup ∧
        (∀ u, u ∈ ((stateOf (runA (fun _ => true) Kind.many (AOp.oinsert 0 0 (some 5))
            St.init)).a w).seq ↔
          u ∈ ((stateOf (runA (fun _ => true) Kind.many (AOp.oinsert 0 0 (some 5))
            St.init)).a w).values) ∧
        (none : V) ∉ ((stateOf (runA (fun _ => true) Kind.many (AOp.oinsert 0 0 (some 5))
            St.init)).a w).seq) ∧
     (∀ (ty : Nat → Bool) (x i : Nat) (v : V),
        v ∈ ((stateOf (runA (fun _ => true) Kind.many (AOp.oinsert 0 0 (some 5))
            St.init)).a (some x)).values →
        ord_insert ty Kind.many x i v
          (stateOf (runA (fun _ => true) Kind.many (AOp.oinsert 0 0 (some 5)) St.init)) =
        Except.error (stateOf (runA (fun _ => true) Kind.many (AOp.oinsert 0 0 (some 5))
            St.init)))) := by
  have hr : Reach (fun _ => true) (fun _ => true) Kind.ordered Kind.many
      (stateOf (runA (fun _ => true) Kind.many (AOp.oinsert 0 0 (some 5)) St.init)) :=
    Reach.step Reach.init (Step.stepA (AOp.oinsert 0 0 (some 5)) St.init rfl)
  exact ⟨hr, C2_ordered_uniqueness _ _ _ _ hr⟩

/-- C3: Slice-assignment atomicity.  If the list assigned to a slice of an
ordered container contains an internal duplicate, or contains a value that
is already a member of the container but lies outside the displaced slice,
then `__setitem__` raises a duplicate error whose resulting state is
exactly the state before the attempted assignment: no structural change to
the sequence, the membership set, or any peer container is applied. -/
theorem C3_slice_assignment_atomicity (ty : Nat → Bool) (k2 : Kind) (x i j : Nat)
    (ys : List V) (s : St)
    (h : ¬ ys.Nodup ∨ ∃ v ∈ ys, v ∈ (s.a (some x)).values ∧
          v ∉ pySlice (s.a (some x)).seq i j) :
    ord_setS ty k2 x i j ys s = Except.error s := by
  rcases h with hnd | ⟨v, hvys, hvvals, hvnr⟩
  · rw [ord_setS, if_pos (fun hlen => hnd (nodup_of_dedup_length ys hlen))]
  · by_cases hdup : ys.dedup.length ≠ ys.length
    · rw [ord_setS, if_pos hdup]
    · simp only [ord_setS, if_neg hdup]
      rw [if_pos]
      rw [List.any_eq_true]
      refine ⟨v, hvvals, ?_⟩
      simp only [List.mem_filter, decide_eq_true_eq]
      exact ⟨List.mem_dedup.mpr hvys, hvnr⟩

theorem C3_slice_assignment_atomicity_witness :
    (¬ ([some 1, some 1] : List V).Nodup ∨ ∃ v ∈ ([some 1, some 1] : List V),
        v ∈ (St.init.a (some 0)).values ∧ v ∉ pySlice (St.init.a (some 0)).seq 0 0) ∧
    ord_setS (fun _ => true) Kind.many 0 0 0 [some 1, some 1] St.init =
      Except.error St.init := by
  have hh : ¬ ([some 1, some 1] : List V).Nodup ∨ ∃ v ∈ ([some 1, some 1] : List V),
      v ∈ (St.init.a (some 0)).values ∧ v ∉ pySlice (St.init.a (some 0)).seq 0 0 :=
    Or.inl (by decide)
  exact ⟨hh, C3_slice_assignment_atomicity _ _ _ _ _ _ _ hh⟩

/-!
## Trace-level behaviour: which associator calls an operation issues
-/

@[simp] theorem emit_tr (s : St) (c : Call) : (emit s c).tr = s.tr ++ [c] := rfl

theorem St.ext3 (s1 s2 : St) (ha : s1.a = s2.a) (hb : s1.b = s2.b)
    (ht : s1.tr = s2.tr) : s1 = s2 := by
  cases s1
  cases s2
  simp_all

theorem Cont.set_value_self (c : Cont) (v : V) (h : c.value = v) :
    { c with value := v } = c := by
  cases c
  cases h
  rfl


/-- C7 counterexample: `SingletonAssociation.set(new)` with `new` equal to the
current value is not a no-op at the associator level.  In a concrete ONE-ONE
state where object 0's container holds object 1, `set(1)` issues a
`dissociate` call and then an `associate` call on the peer associator,
refuting "invokes no associate or dissociate call on the peer associator"
(the source of `set` has no equal-value check: it unconditionally
dissociates the current value and re-associates the new one). -/
theorem C7_counterexample :
    singleton_get 0 s0C7 = some 1 ∧
    traceOf (singleton_set (fun _ => true) Kind.one 0 (some 1) s0C7) =
      [Call.dissocB (some 1) (some 0), Call.assocB (some 1) (some 0)] :=
  ⟨rfl, rfl⟩

/-- C7 (amended): for a ONE-ONE relationship in a symmetric state, calling
`set(new)` when `new` equals the current (non-`None`) value leaves every
container on both sides exactly unchanged, but it does issue exactly one
`dissociate` call followed by one `associate` call on the peer associator
(there is no equal-value short-circuit in `SingletonAssociation.set`). -/
theorem C7_singleton_set_equal_value (ty : Nat → Bool) (x y : Nat) (s : St)
    (hty : ty y = true)
    (hcur : (s.a (some x)).value = some y)
    (hpeer : (s.b (some y)).value = some x) :
    singleton_set ty Kind.one x (some y) s =
      .ok { s with tr := s.tr ++ [Call.dissocB (some y) (some x),
                                  Call.assocB (some y) (some x)] } := by
  have hval : validate_object ty (some y) = true := by simp [validate_object, hty]
  rw [singleton_set, if_neg (by simp [hval]), hcur,
    if_pos (show (some y : V) ≠ none by simp)]
  have hd : dissocB Kind.one (some y) (some x) s =
      .ok (updB (emit s (.dissocB (some y) (some x))) (some y)
        (fun c => { c with value := none })) := rfl
  rw [hd, bindR_ok]
  rw [if_pos (show (some y : V) ≠ none by simp)]
  have ha : assocB Kind.one Kind.one (some y) (some x)
      (updA (updB (emit s (.dissocB (some y) (some x))) (some y)
        (fun c => { c with value := none })) (some x)
        (fun c => { c with value := some y })) =
      .ok (updB (emit (updA (updB (emit s (.dissocB (some y) (some x))) (some y)
        (fun c => { c with value := none })) (some x)
        (fun c => { c with value := some y })) (.assocB (some y) (some x)))
        (some y) (fun c => { c with value := some x })) := by
    rw [assocB]
    rw [if_neg (by simp [updB, emit, Function.update_same])]
    rw [if_neg (by simp [updB, emit, Function.update_same]), bindR_ok]
  rw [ha]
  refine congrArg Except.ok (St.ext3 _ _ ?_ ?_ ?_)
  · simp only [updB, updA, emit]
    rw [Cont.set_value_self _ _ hcur]
    exact Function.update_eq_self (some x) s.a
  · simp only [updB, updA, emit, Function.update_same]
    rw [Function.update_idem]
    have h2 : ({ ({ s.b (some y) with value := none } : Cont)
        with value := some x } : Cont) = s.b (some y) :=
      Cont.set_value_self _ _ hpeer
    rw [h2]
    exact Function.update_eq_self (some y) s.b
  · simp [updA, updB, emit]

theorem C7_singleton_set_equal_value_witness :
    ((fun _ => true : Nat → Bool) 1 = true ∧
     (s0C7.a (some 0)).value = some 1 ∧
     (s0C7.b (some 1)).value = some 0) ∧
    singleton_set (fun _ => true) Kind.one 0 (some 1) s0C7 =
      .ok { s0C7 with tr := s0C7.tr ++ [Call.dissocB (some 1) (some 0),
                                        Call.assocB (some 1) (some 0)] } :=
  ⟨⟨rfl, rfl, rfl⟩,
   C7_singleton_set_equal_value (fun _ => true) 0 1 s0C7 rfl rfl rfl⟩

/-- Trace of the `dissociate` loop of `SetAssociation.clear` over a list of
current members (MANY peer): it succeeds, leaves the A side untouched, and
appends one `dissociate` call per member, in iteration order. -/
theorem clear_loop_trace (x : Nat) : ∀ (l : List V) (s : St),
    l.Nodup → (∀ v ∈ l, some x ∈ (s.b v).values) →
    ∃ s2, forList (fun v s => dissocB .many v (some x) s) l s = .ok s2 ∧
      s2.a = s.a ∧ s2.tr = s.tr ++ l.map (fun v => Call.dissocB v (some x)) := by
  intro l
  induction l with
  | nil => exact fun s _ _ => ⟨s, rfl, rfl, by simp⟩
  | cons v rest ih =>
    intro s hnd hmem
    have hv : some x ∈ (s.b v).values := hmem v (List.mem_cons_self v rest)
    have hstep : dissocB .many v (some x) s =
        .ok (updB (emit s (.dissocB v (some x))) v
          (fun c => { c with values := c.values.erase (some x) })) := by
      simp only [dissocB, emit_b, if_pos hv]
    set s1 := updB (emit s (.dissocB v (some x))) v
      (fun c => { c with values := c.values.erase (some x) }) with hs1
    have hrest : ∀ u ∈ rest, some x ∈ (s1.b u).values := by
      intro u hu
      have hune : u ≠ v := fun he => (List.nodup_cons.mp hnd).1 (he ▸ hu)
      rw [hs1, updB_b_other _ _ _ _ hune, emit_b]
      exact hmem u (List.mem_cons_of_mem v hu)
    obtain ⟨s2, hs2run, hs2a, hs2tr⟩ := ih s1 (List.nodup_cons.mp hnd).2 hrest
    refine ⟨s2, ?_, hs2a, ?_⟩
    · rw [forList, hstep, bindR_ok]
      exact hs2run
    · rw [hs2tr, hs1]
      simp [updB, emit]

/-- Trace of the `add` loop of `SetAssociation.assign` (MANY-MANY): with the
new elements valid, distinct and all absent from the container, it succeeds
and appends one `associate` call per element, in iteration order. -/
theorem add_loop_trace (ty : Nat → Bool) (x : Nat) : ∀ (vs : List V) (s : St),
    vs.Nodup → (∀ v ∈ vs, validate_object ty v = true) →
    (∀ v ∈ vs, v ∉ (s.a (some x)).values) →
    ∃ s2, forList (fun v s => set_add ty .many x v s) vs s = .ok s2 ∧
      s2.tr = s.tr ++ vs.map (fun v => Call.assocB v (some x)) := by
  intro vs
  induction vs with
  | nil => exact fun s _ _ _ => ⟨s, rfl, by simp⟩
  | cons v rest ih =>
    intro s hnd hval hnin
    have hvn : v ∉ (s.a (some x)).values := hnin v (List.mem_cons_self v rest)
    have hstep : set_add ty .many x v s =
        .ok (updB (emit (updA s (some x)
            (fun c => { c with values := setAdd c.values v }))
          (.assocB v (some x))) v
          (fun c => { c with values := setAdd c.values (some x) })) := by
      rw [set_add, if_neg hvn, if_neg (by simp [hval v (List.mem_cons_self v rest)])]
      rfl
    set s1 := updB (emit (updA s (some x)
        (fun c => { c with values := setAdd c.values v }))
      (.assocB v (some x))) v
      (fun c => { c with values := setAdd c.values (some x) }) with hs1
    have hrest : ∀ u ∈ rest, u ∉ (s1.a (some x)).values := by
      intro u hu hmem
      have : (s1.a (some x)).values = setAdd (s.a (some x)).values v := by
        rw [hs1, updB_a, emit_a, updA_a_same]
      rw [this, mem_setAdd] at hmem
      rcases hmem with hold | he
      · exact hnin u (List.mem_cons_of_mem v hu) hold
      · exact (List.nodup_cons.mp hnd).1 (he ▸ hu)
    obtain ⟨s2, hrun, htr⟩ := ih s1 (List.nodup_cons.mp hnd).2
      (fun u hu => hval u (List.mem_cons_of_mem v hu)) hrest
    refine ⟨s2, ?_, ?_⟩
    · rw [forList, hstep, bindR_ok]
      exact hrun
    · rw [htr, hs1]
      simp [updB, updA, emit]


/-- C8 counterexample: `assign` is `clear` followed by re-`add`, not a
diff.  In a concrete MANY-MANY state where the container of object 0 is
`{1}` and the new extension is again `[1]`, the element 1 is present in
both the old and the new sets, yet the `assign` issues a `dissociate`
call and then an `associate` call for it, refuting "for every element
present in both the old and new sets, no associate or dissociate call is
ever issued". -/
theorem C8_counterexample :
    some 1 ∈ (s0C8.a (some 0)).values ∧ some 1 ∈ ([some 1] : List V) ∧
    traceOf (set_assign (fun _ => true) Kind.many 0 [some 1] s0C8) =
      [Call.dissocB (some 1) (some 0), Call.assocB (some 1) (some 0)] :=
  ⟨by decide, by decide, by decide⟩

/-- C8 (amended): `SetAssociation.assign` (MANY-MANY) is implemented as
`clear` followed by `add` of every new element: it issues a `dissociate`
call for every element of the old extension and an `associate` call for
every element of the new extension, in particular both calls for every
element present in both sets; no diff between old and new extension is
computed (`OrderedAssociation.assign` likewise clears and re-appends). -/
theorem C8_set_assign_trace (ty : Nat → Bool) (x : Nat) (vs : List V) (s : St)
    (h : Inv Kind.many Kind.many s)
    (hnd : vs.Nodup) (hval : ∀ v ∈ vs, validate_object ty v = true) :
    ∃ s2, set_assign ty Kind.many x vs s = .ok s2 ∧
      s2.tr = s.tr ++ (s.a (some x)).values.map (fun v => Call.dissocB v (some x))
                   ++ vs.map (fun v => Call.assocB v (some x)) := by
  obtain ⟨hsym, hwfa, hwfb⟩ := h
  have hmem : ∀ v ∈ (s.a (some x)).values, some x ∈ (s.b v).values := by
    intro v hv
    cases v with
    | none => exact absurd hv (hwfa (some x)).2
    | some y => exact (hsym x y).mp hv
  obtain ⟨sc, hcrun, hca, hctr⟩ :=
    clear_loop_trace x (s.a (some x)).values s (hwfa (some x)).1 hmem
  have hclear : set_clear Kind.many x s =
      .ok (updA sc (some x) (fun c => { c with values := [] })) := by
    rw [set_clear, hcrun, bindR_ok]
  set sC := updA sc (some x) (fun c => { c with values := [] }) with hsC
  have hCvals : (sC.a (some x)).values = [] := by rw [hsC, updA_a_same]
  obtain ⟨s2, harun, hatr⟩ := add_loop_trace ty x vs sC hnd hval
    (by intro v hv; rw [hCvals]; simp)
  refine ⟨s2, ?_, ?_⟩
  · rw [set_assign, hclear, bindR_ok]
    exact harun
  · rw [hatr, hsC, updA_tr, hctr]

theorem C8_set_assign_trace_witness :
    (Inv Kind.many Kind.many s0C8 ∧ ([some 1] : List V).Nodup ∧
      (∀ v ∈ ([some 1] : List V), validate_object (fun _ => true) v = true)) ∧
    (∃ s2, set_assign (fun _ => true) Kind.many 0 [some 1] s0C8 = .ok s2 ∧
      s2.tr = s0C8.tr
        ++ (s0C8.a (some 0)).values.map (fun v => Call.dissocB v (some 0))
        ++ ([some 1] : List V).map (fun v => Call.assocB v (some 0))) := by
  have hinv : Inv Kind.many Kind.many s0C8 := by
    refine ⟨?_, ?_, ?_⟩
    · intro x y
      show some y ∈ (s0C8.a (some x)).values ↔ some x ∈ (s0C8.b (some y)).values
      by_cases hx : x = 0 <;> by_cases hy : y = 1 <;>
        simp [s0C8, Cont.empty, hx, hy]
    · intro v
      show WFset (s0C8.a v).values
      by_cases hv : v = some 0 <;> simp [s0C8, hv, Cont.empty, WFset]
    · intro v
      show WFset (s0C8.b v).values
      by_cases hv : v = some 1 <;> simp [s0C8, hv, Cont.empty, WFset]
  exact ⟨⟨hinv, by decide, by decide⟩,
    C8_set_assign_trace (fun _ => true) 0 [some 1] s0C8 hinv
      (by decide) (by decide)⟩


/-- C6: self-loop correctness.  For a symmetric MANY self-relationship
with `n` valid and not yet its own neighbour, `n.neighbors.add(n)` returns
normally (the embedding is non-recursive, as is the source: `associate`
performs a raw set-add and never calls back into a container operation, and
the `own is other and self.peer is self` guard returns immediately here),
makes `n` a member of `n.neighbors`, performs exactly one raw container
mutation, and touches no other object's container; `n.neighbors.remove(n)`
then returns normally, restores `n ∉ n.neighbors`, performs exactly one
further raw mutation, and restores every container to its initial
contents. -/
theorem C6_self_loop (ty : Nat → Bool) (n : Nat) (s : SSt)
    (hty : ty n = true) (hnotin : some n ∉ s.a (some n)) :
    ∃ s1, self_add ty n (some n) s = .ok s1 ∧
      some n ∈ s1.a (some n) ∧
      s1.edits = s.edits + 1 ∧
      (∀ v, v ≠ some n → s1.a v = s.a v) ∧
      ∃ s2, self_remove n (some n) s1 = .ok s2 ∧
        some n ∉ s2.a (some n) ∧ s2.edits = s1.edits + 1 ∧ s2.a = s.a := by
  have hval : validate_object ty (some n) = true := by simp [validate_object, hty]
  refine ⟨⟨Function.update s.a (some n) (setAdd (s.a (some n)) (some n)),
    s.edits + 1⟩, ?_, ?_, rfl, ?_, ?_⟩
  · rw [self_add, if_neg hnotin, if_neg (by simp [hval])]
    show Except.ok (selfAssociate (some n) (some n) _) = _
    rw [selfAssociate, if_pos rfl]
  · simp [Function.update_same, mem_setAdd]
  · intro v hv
    simp [Function.update_noteq hv]
  · have hmem1 : some n ∈
        Function.update s.a (some n) (setAdd (s.a (some n)) (some n)) (some n) := by
      simp [Function.update_same, mem_setAdd]
    have hrestore :
        (setAdd (s.a (some n)) (some n)).erase (some n) = s.a (some n) := by
      rw [setAdd, if_neg hnotin, List.erase_append_right _ (by simpa using hnotin)]
      simp
    refine ⟨⟨Function.update (Function.update s.a (some n)
        (setAdd (s.a (some n)) (some n))) (some n)
        ((setAdd (s.a (some n)) (some n)).erase (some n)), s.edits + 1 + 1⟩,
      ?_, ?_, rfl, ?_⟩
    · rw [self_remove, if_pos hmem1, self_discard, if_pos hmem1]
      show selfDissociate (some n) (some n) _ = _
      rw [selfDissociate, if_pos rfl]
      refine congrArg Except.ok ?_
      refine congrArg (fun l => (⟨Function.update (Function.update s.a (some n)
        (setAdd (s.a (some n)) (some n))) (some n) l, s.edits + 1 + 1⟩ : SSt)) ?_
      simp [Function.update_same]
    · simp only [Function.update_same, hrestore]
      exact hnotin
    · rw [Function.update_idem, hrestore]
      exact Function.update_eq_self (some n) s.a


theorem C6_self_loop_witness :
    ((fun _ => true : Nat → Bool) 0 = true ∧ some 0 ∉ sSelf0.a (some 0)) ∧
    (∃ s1, self_add (fun _ => true) 0 (some 0) sSelf0 = .ok s1 ∧
      some 0 ∈ s1.a (some 0) ∧
      s1.edits = sSelf0.edits + 1 ∧
      (∀ v, v ≠ some 0 → s1.a v = sSelf0.a v) ∧
      ∃ s2, self_remove 0 (some 0) s1 = .ok s2 ∧
        some 0 ∉ s2.a (some 0) ∧ s2.edits = s1.edits + 1 ∧ s2.a = sSelf0.a) :=
  ⟨⟨rfl, by simp [sSelf0]⟩,
   C6_self_loop (fun _ => true) 0 sSelf0 rfl (by simp [sSelf0])⟩


theorem callCh_spec (v : PVal) : ∀ (ch ch2 : List (String × FNode))
    (evs : List FEv), callCh ch v = .ok (ch2, evs) → ChBound v ch ch2 evs := by
  intro ch
  induction ch with
  | nil =>
    intro ch2 evs h
    rw [callCh] at h
    cases h
    exact ChBound.nil
  | cons hd rest ih =>
    intro ch2 evs h
    obtain ⟨k, c⟩ := hd
    cases hattr : v.attr k with
    | none => simp [callCh, hattr] at h
    | some cv =>
      cases hc : callF c cv with
      | error e => simp [callCh, hattr, hc] at h
      | ok p =>
        obtain ⟨c2, evs1⟩ := p
        cases hr : callCh rest v with
        | error e => simp [callCh, hattr, hc, hr] at h
        | ok q =>
          obtain ⟨rest2, evs2⟩ := q
          simp [callCh, hattr, hc, hr] at h
          obtain ⟨h1, h2⟩ := h
          subst h1
          subst h2
          exact ChBound.cons hattr hc (ih rest2 evs2 hr)

/-- C4: forward-reference binding propagation.  If binding the concrete value
`v` to a node with accumulated callbacks `cbs` and materialized children `ch`
returns normally, then: every accumulated callback is invoked with `v` and
the index its attacher supplied, in attachment order, before any child event;
every existing child named `k` is recursively bound to `getattr(v, k)`; and
the node's callback list is cleared and the node leaves the context's pending
set. -/
theorem C4_binding_propagation (cbs : List (Nat × Option Nat)) (p : Bool)
    (ch : List (String × FNode)) (v : PVal) (n2 : FNode) (evs : List FEv)
    (h : callF (FNode.mk cbs p ch) v = .ok (n2, evs)) :
    ∃ ch2 evsch, n2 = FNode.mk [] false ch2 ∧
      evs = cbs.map (fun c => (c.1, v, c.2)) ++ evsch ∧
      ChBound v ch ch2 evsch := by
  rw [callF] at h
  cases hch : callCh ch v with
  | error e => rw [hch] at h; cases h
  | ok q =>
    obtain ⟨ch2, evs2⟩ := q
    rw [hch] at h
    cases h
    exact ⟨ch2, evs2, rfl, rfl, callCh_spec v ch ch2 evs2 hch⟩

theorem C4_binding_propagation_witness :
    (callF (FNode.mk [(7, some 3)] true
        [("x", FNode.mk [(8, none)] true [])])
      (PVal.obj [("x", PVal.base 5)]) =
      .ok (FNode.mk [] false [("x", FNode.mk [] false [])],
        [(7, PVal.obj [("x", PVal.base 5)], some 3), (8, PVal.base 5, none)])) ∧
    (∃ ch2 evsch,
      (FNode.mk [] false [("x", FNode.mk [] false [])]) = FNode.mk [] false ch2 ∧
      ([(7, PVal.obj [("x", PVal.base 5)], some 3), (8, PVal.base 5, none)]
          : List FEv) =
        ([(7, some 3)] : List (Nat × Option Nat)).map
          (fun c => (c.1, PVal.obj [("x", PVal.base 5)], c.2)) ++ evsch ∧
      ChBound (PVal.obj [("x", PVal.base 5)])
        [("x", FNode.mk [(8, none)] true [])] ch2 evsch) :=
  ⟨rfl, C4_binding_propagation [(7, some 3)] true
    [("x", FNode.mk [(8, none)] true [])]
    (PVal.obj [("x", PVal.base 5)])
    (FNode.mk [] false [("x", FNode.mk [] false [])])
    [(7, PVal.obj [("x", PVal.base 5)], some 3), (8, PVal.base 5, none)] rfl⟩

/-- C9 evidence: attaching after a bind is not rejected.  Binding a concrete
value to a node clears its callbacks and removes it from `PENDING`, but a
subsequent `attach` returns normally: it appends the callback and puts the
node back into `PENDING`.  `ForwardReference.attach` contains no bound-state
check and no raise, contradicting the docstring of `__call__` ("In the
future, all attach calls will be rejected with an exception"): there is no
terminal Bound state in the code. -/
theorem C9_attach_after_bind_not_rejected :
    ∃ n2 evs, callF (FNode.mk [(7, some 3)] true []) (PVal.base 5) =
        .ok (n2, evs) ∧
      attach n2 (9, none) = FNode.mk [(9, none)] true [] :=
  ⟨FNode.mk [] false [], [(7, PVal.base 5, some 3)], rfl, rfl⟩


theorem count_map_inj (R : Nat) : ∀ (l : List (Nat × Nat)) (c : Nat × Nat),
    (l.map (fun cb => (cb.1, cb.2, R))).count (c.1, c.2, R) = l.count c := by
  intro l
  induction l with
  | nil => intro c; rfl
  | cons a l ih =>
    intro c
    simp only [List.map_cons, List.count_cons, ih]
    congr 1
    by_cases h : a = c
    · subst h
      simp
    · have h2 : ¬(a.1, a.2, R) = (c.1, c.2, R) := by
        intro hc
        have h1 : a.1 = c.1 := congrArg (fun p : Nat × Nat × Nat => p.1) hc
        have h3 : a.2 = c.2 := congrArg (fun p : Nat × Nat × Nat => p.2.1) hc
        exact h (Prod.ext h1 h3)
      simp [h, h2]

theorem scanPos_ready (args : List Arg) (h : ∀ a ∈ args, a.isReady = true) :
    scanPos args = (args.map Arg.stored, 0) := by
  induction args with
  | nil => rfl
  | cons a rest ih =>
    rw [scanPos, ih (fun b hb => h b (List.mem_cons_of_mem a hb)),
      h a (List.mem_cons_self a rest)]
    simp

theorem scanKw_ready (kwargs : List (String × Arg))
    (h : ∀ p ∈ kwargs, (p.2).isReady = true) :
    scanKw kwargs = (kwargs.map (fun p => (p.1, p.2.stored)), 0) := by
  induction kwargs with
  | nil => rfl
  | cons p rest ih =>
    obtain ⟨k, a⟩ := p
    rw [scanKw, ih (fun q hq => h q (List.mem_cons_of_mem (k, a) hq)),
      h (k, a) (List.mem_cons_self (k, a) rest)]
    simp

/-- C5: `forward_call` resolution.  (1) When no argument is an unresolved
reference or a pending call, the function is invoked immediately at
construction: the result is cached and equals `f` applied to the stored
argument values.  (2) When instead the call is pending on exactly one
outstanding slot (`barrier = 1`, no result yet), delivering that slot's
value invokes the function exactly then: the result is cached and equals
`f` applied to the fully-filled slots, and every callback attached before
resolution fires exactly once, with that result.  (3) While more than one
slot is outstanding, a delivery caches no result and fires nothing. -/
theorem C5_forward_call_resolution
    (f : List (Option Nat) → List (String × Option Nat) → Nat)
    (args : List Arg) (kwargs : List (String × Arg))
    (fc fc2 : FC) (i v j w : Nat)
    (hready : ∀ a ∈ args, a.isReady = true)
    (hkready : ∀ p ∈ kwargs, (p.2).isReady = true)
    (hres : fc.result = none) (hbar : fc.barrier = 1)
    (hbar2 : 1 < fc2.barrier) :
    (mkFC f args kwargs =
      (⟨0, [], args.map Arg.stored, kwargs.map (fun p => (p.1, p.2.stored)),
        some (f (args.map Arg.stored) (kwargs.map (fun p => (p.1, p.2.stored))))⟩,
       [])) ∧
    ((deliverPos f i v fc).1.result =
        some (f (fc.slots.set i (some v)) fc.kwslots) ∧
      (deliverPos f i v fc).1.barrier = 0 ∧
      ∀ c1 c2 : Nat,
        ((deliverPos f i v fc).2.count
            (c1, c2, f (fc.slots.set i (some v)) fc.kwslots) =
          fc.callbacks.count (c1, c2))) ∧
    ((deliverPos f j w fc2).1.result = fc2.result ∧
      (deliverPos f j w fc2).2 = []) := by
  refine ⟨?_, ?_, ?_⟩
  · rw [mkFC]
    rw [scanPos_ready args hready, scanKw_ready kwargs hkready]
    simp [runBarrier]
  · have hb0 : fc.barrier - 1 = 0 := by omega
    simp only [deliverPos]
    rw [if_pos hb0]
    refine ⟨rfl, hb0, ?_⟩
    intro c1 c2
    exact (count_map_inj (f (fc.slots.set i (some v)) fc.kwslots)
        fc.callbacks.reverse (c1, c2)).trans
      (List.count_reverse (c1, c2) fc.callbacks)
  · have hb1 : ¬(fc2.barrier - 1 = 0) := by omega
    simp only [deliverPos]
    rw [if_neg hb1]
    exact ⟨rfl, rfl⟩

theorem C5_forward_call_resolution_witness :
    ((∀ a ∈ [Arg.val 10], a.isReady = true) ∧
     (∀ p ∈ [("k", Arg.fcReady 20)], (p.2).isReady = true) ∧
     (⟨1, [(3, 0)], [none], [], none⟩ : FC).result = none ∧
     (⟨1, [(3, 0)], [none], [], none⟩ : FC).barrier = 1 ∧
     1 < (⟨2, [], [none, none], [], none⟩ : FC).barrier) ∧
    ((mkFC (fun sl kw => sl.length + kw.length) [Arg.val 10]
        [("k", Arg.fcReady 20)] =
      (⟨0, [], [some 10], [("k", some 20)], some 2⟩, [])) ∧
     ((deliverPos (fun sl kw => sl.length + kw.length) 0 5
          (⟨1, [(3, 0)], [none], [], none⟩ : FC)).1.result = some 1 ∧
      (deliverPos (fun sl kw => sl.length + kw.length) 0 5
          (⟨1, [(3, 0)], [none], [], none⟩ : FC)).1.barrier = 0 ∧
      ∀ c1 c2 : Nat,
        ((deliverPos (fun sl kw => sl.length + kw.length) 0 5
            (⟨1, [(3, 0)], [none], [], none⟩ : FC)).2.count (c1, c2, 1) =
          ([(3, 0)] : List (Nat × Nat)).count (c1, c2))) ∧
     ((deliverPos (fun sl kw => sl.length + kw.length) 0 7
          (⟨2, [], [none, none], [], none⟩ : FC)).1.result = none ∧
      (deliverPos (fun sl kw => sl.length + kw.length) 0 7
          (⟨2, [], [none, none], [], none⟩ : FC)).2 = [])) :=
  ⟨⟨by decide, by decide, rfl, rfl, by decide⟩,
   C5_forward_call_resolution (fun sl kw => sl.length + kw.length)
     [Arg.val 10] [("k", Arg.fcReady 20)]
     ⟨1, [(3, 0)], [none], [], none⟩ ⟨2, [], [none, none], [], none⟩
     0 5 0 7 (by decide) (by decide) rfl rfl (by decide)⟩

/-- C10 (implicit): callbacks queued on an unresolved `forward_call` fire,
at the moment the barrier reaches zero and the function has been invoked,
in reverse order of attachment (`callbacks.pop()` in a loop: last attached
fires first), and a callback attached after resolution fires immediately
with the cached result. -/
theorem C10_callback_order
    (f : List (Option Nat) → List (String × Option Nat) → Nat)
    (fc fc2 : FC) (i v : Nat) (cb : Nat × Nat) (r : Nat)
    (hbar : fc.barrier = 1) (hres2 : fc2.result = some r) :
    ((deliverPos f i v fc).2 = fc.callbacks.reverse.map
        (fun c => (c.1, c.2, f (fc.slots.set i (some v)) fc.kwslots))) ∧
    attachFC cb fc2 = (fc2, [(cb.1, cb.2, r)]) := by
  constructor
  · have hb0 : fc.barrier - 1 = 0 := by omega
    simp only [deliverPos]
    rw [if_pos hb0]
    rfl
  · rw [attachFC, hres2]

theorem C10_callback_order_witness :
    ((⟨1, [(3, 0), (4, 1)], [none], [], none⟩ : FC).barrier = 1 ∧
     (⟨0, [], [], [], some 9⟩ : FC).result = some 9) ∧
    ((deliverPos (fun sl kw => sl.length + kw.length) 0 5
        (⟨1, [(3, 0), (4, 1)], [none], [], none⟩ : FC)).2 =
      [(4, 1, 1), (3, 0, 1)]) ∧
    attachFC (6, 2) (⟨0, [], [], [], some 9⟩ : FC) =
      ((⟨0, [], [], [], some 9⟩ : FC), [(6, 2, 9)]) :=
  ⟨⟨rfl, rfl⟩,
   C10_callback_order (fun sl kw => sl.length + kw.length)
     ⟨1, [(3, 0), (4, 1)], [none], [], none⟩ ⟨0, [], [], [], some 9⟩
     0 5 (6, 2) 9 rfl rfl⟩

end PyModeling
